import Mathlib

/-!
Verification of the `wilderfield::priority_map` ordered-bucket index.

The C++ container keeps a doubly linked list `nodeList_` of nodes, each node
holding a distinct priority value `val` together with the `unordered_set` of
keys currently at that value, plus a hash map `keyToNode_` sending each key to
the list node that contains it.  We embed the container shallowly:

* a list node (`Node` in the source) becomes `Bucket`, whose key set is a
  `List Nat` (set insertion is a no-op on a key already present);
* the `std::list` becomes a `List Bucket` in the same order;
* `keyToNode_` becomes an association list from keys to the *value* of the
  referenced node.  Under the container's central invariant the node values
  are pairwise distinct, so a node is uniquely named by its value and this is
  a faithful rendering of the stable iterator stored by the C++ map;
* the comparator template parameter is either `std::less` or `std::greater`
  on a numeric type, modelled by `Cmp` acting on `Int`;
* a `throw` becomes an `Except`/`Option Err` result; operations that throw
  before mutating return the untouched state alongside the error.

The operations are translated from the repository's most complete variant of
`priority_map.hpp` (the one with `insert`/`update`); the older header's
dedicated `increment` and the arbitrary-value `emplace` are translated as
well, for the step-equivalence claim.
-/

namespace Wilderfield

/-- The comparator template argument: `std::less<Int>` or `std::greater<Int>`. -/
inductive Cmp where
  | lt : Cmp
  | gt : Cmp
deriving DecidableEq, Repr

/-- `comp c a b` is `Compare()(a, b)` in C++. -/
def comp : Cmp → Int → Int → Bool
  | .lt, a, b => decide (a < b)
  | .gt, a, b => decide (b < a)

/-- A node of `nodeList_`: one distinct priority value and its member keys. -/
structure Bucket where
  val : Int
  keys : List Nat
deriving DecidableEq, Repr

/-- `unordered_set::insert`: add the key unless it is already a member. -/
def insKey (k : Nat) (l : List Nat) : List Nat :=
  if k ∈ l then l else k :: l

/-- The whole container: the sorted node list and the key index
(`keyToNode_`, a node rendered by its value). -/
structure PMap where
  nodeList_ : List Bucket
  keyToNode_ : List (Nat × Int)
deriving DecidableEq, Repr

/-- `unordered_map::find` / reading `keyToNode_`. -/
def lookupKey : List (Nat × Int) → Nat → Option Int
  | [], _ => none
  | p :: m, k => if p.1 = k then some p.2 else lookupKey m k

/-- `keyToNode_.erase(key)`. -/
def eraseKey (m : List (Nat × Int)) (k : Nat) : List (Nat × Int) :=
  m.filter (fun p => p.1 ≠ k)

/-- `keyToNode_[key] = it`: store a (fresh) binding for `key`. -/
def setKey (m : List (Nat × Int)) (k : Nat) (v : Int) : List (Nat × Int) :=
  (k, v) :: eraseKey m k

/-- The two error kinds of the container, plus the defensive
`std::logic_error` thrown on a node with no keys. -/
inductive Err where
  | keyNotFound : Err
  | emptyStructure : Err
  | inconsistentState : Err
deriving DecidableEq, Repr

/-- `std::find_if` from a given position followed by the merge-or-splice of
`update`/`emplace`/`insert`: walk the list; at the first node satisfying `p`,
merge `k` into it when its value is exactly `v`, otherwise splice a new
singleton node `{v, {k}}` in front of it (at the end when no node matches). -/
def scanInsert (p : Bucket → Bool) (v : Int) (k : Nat) : List Bucket → List Bucket
  | [] => [⟨v, [k]⟩]
  | b :: bs =>
    if p b then
      if b.val = v then ⟨b.val, insKey k b.keys⟩ :: bs else ⟨v, [k]⟩ :: b :: bs
    else b :: scanInsert p v k bs

/-- The forward-scan predicate of `update` (its lambda tests the comparator
with `comp_(1,0)`). -/
def fwdPred (c : Cmp) (newVal : Int) (b : Bucket) : Bool :=
  if comp c 1 0 then decide (b.val ≤ newVal) else decide (newVal ≤ b.val)

/-- The backward-scan predicate of `update` (its lambda tests `comp_(0,1)`). -/
def bwdPred (c : Cmp) (newVal : Int) (b : Bucket) : Bool :=
  if comp c 0 1 then decide (b.val ≤ newVal) else decide (newVal ≤ b.val)

/-- The scan predicate of the older header's `emplace`. -/
def emplacePred (c : Cmp) (newVal : Int) (b : Bucket) : Bool :=
  if comp c 0 1 then decide (newVal ≤ b.val) else decide (b.val ≤ newVal)

/-- The scan predicate of `insert`: `node.val >= 0`. -/
def zeroPred (b : Bucket) : Bool :=
  decide (0 ≤ b.val)

/-- Locate the node referenced by `keyToNode_[key]` (rendered by its value):
split the list into the part before it, the node itself, and the part after. -/
def splitAtVal (v : Int) : List Bucket → Option (List Bucket × Bucket × List Bucket)
  | [] => none
  | b :: bs =>
    if b.val = v then some ([], b, bs)
    else
      match splitAtVal v bs with
      | none => none
      | some (pre, ob, suf) => some (b :: pre, ob, suf)

/-- `if (oldIt->keys.empty()) nodeList_.erase(oldIt);` — drop the node of
value `v` when its key set has become empty. -/
def eraseBucketIfEmpty (v : Int) : List Bucket → List Bucket
  | [] => []
  | b :: bs =>
    if b.val = v then (if b.keys.isEmpty then bs else b :: bs)
    else b :: eraseBucketIfEmpty v bs

/-- The removal half of `erase(key)`: take `k` out of the node of value `v`,
dropping that node when it empties. -/
def eraseFromBucket (l : List Bucket) (v : Int) (k : Nat) : List Bucket :=
  match l with
  | [] => []
  | b :: bs =>
    if b.val = v then
      let b' : Bucket := ⟨b.val, b.keys.erase k⟩
      if b'.keys.isEmpty then bs else b' :: bs
    else b :: eraseFromBucket bs v k

/-- `update(key, newVal)` of the complete variant: remove the key from its
node, scan from the vacated position in the direction given by
`comp_(oldVal, newVal)` (forward towards the tail, or backward towards the
head via reverse iterators), merge into the node holding exactly `newVal` or
splice a new singleton node at the crossover, and finally drop the vacated
node if it emptied.  A missing key makes `keyToNode_[key]` undefined
behaviour in C++; the public interface never reaches it and we return the
state unchanged. -/
def update (c : Cmp) (s : PMap) (k : Nat) (newVal : Int) : PMap :=
  match lookupKey s.keyToNode_ k with
  | none => s
  | some oldVal =>
    if oldVal = newVal then s
    else
      match splitAtVal oldVal s.nodeList_ with
      | none => s
      | some (pre, oldB, suf) =>
        let oldB' : Bucket := ⟨oldB.val, oldB.keys.erase k⟩
        let m' := setKey (eraseKey s.keyToNode_ k) k newVal
        if comp c oldVal newVal then
          { nodeList_ :=
              pre ++ eraseBucketIfEmpty oldVal
                (scanInsert (fwdPred c newVal) newVal k (oldB' :: suf)),
            keyToNode_ := m' }
        else
          { nodeList_ :=
              (scanInsert (bwdPred c newVal) newVal k pre.reverse).reverse ++
                eraseBucketIfEmpty oldVal (oldB' :: suf),
            keyToNode_ := m' }

/-- `insert(key, newVal)`: when the key is absent, place it in the node of
value `0` (minheap: forward scan; maxheap: reverse scan, `next(it).base()`
recovering the found node), then delegate to `update`. -/
def insert (c : Cmp) (s : PMap) (k : Nat) (newVal : Int) : PMap :=
  let s1 :=
    if lookupKey s.keyToNode_ k = none then
      if comp c 0 1 then
        { nodeList_ := scanInsert zeroPred 0 k s.nodeList_,
          keyToNode_ := setKey s.keyToNode_ k 0 }
      else
        { nodeList_ := (scanInsert zeroPred 0 k s.nodeList_.reverse).reverse,
          keyToNode_ := setKey s.keyToNode_ k 0 }
    else s
  update c s1 k newVal

/-- `getVal(key)`: the value of the referenced node, or `KeyNotFound`. -/
def getVal (s : PMap) (k : Nat) : Except Err Int :=
  match lookupKey s.keyToNode_ k with
  | some v => .ok v
  | none => .error .keyNotFound

/-- `top()`: one key of the front node together with its value. -/
def top (s : PMap) : Except Err (Nat × Int) :=
  match s.nodeList_ with
  | [] => .error .emptyStructure
  | b :: _ =>
    match b.keys with
    | [] => .error .inconsistentState
    | k :: _ => .ok (k, b.val)

/-- `pop()`: remove the first key of the front node (and the node itself if
it empties).  The state is returned unchanged alongside any error, the C++
code throwing before it mutates. -/
def pop (s : PMap) : Option Err × PMap :=
  match s.nodeList_ with
  | [] => (some .emptyStructure, s)
  | b :: rest =>
    match b.keys with
    | [] => (some .inconsistentState, s)
    | k :: _ =>
      let b' : Bucket := ⟨b.val, b.keys.erase k⟩
      let m' := eraseKey s.keyToNode_ k
      if b'.keys.isEmpty then (none, { nodeList_ := rest, keyToNode_ := m' })
      else (none, { nodeList_ := b' :: rest, keyToNode_ := m' })

/-- `erase(key)`: remove the key from its node and from the index, dropping
the node if it empties; the returned count is `keyToNode_.erase(key)`. -/
def erase (s : PMap) (k : Nat) : Nat × PMap :=
  match lookupKey s.keyToNode_ k with
  | some oldVal =>
    (1, { nodeList_ := eraseFromBucket s.nodeList_ oldVal k,
          keyToNode_ := eraseKey s.keyToNode_ k })
  | none => (0, s)

/-- `operator[]`: first touch inserts the key with default value `0`. -/
def indexOp (c : Cmp) (s : PMap) (k : Nat) : PMap :=
  if lookupKey s.keyToNode_ k = none then insert c s k 0 else s

/-- `++pm[key]` — `operator[]` then `Proxy::operator++`, which runs
`update(key, getVal(key)+1)`. -/
def bracketIncr (c : Cmp) (s : PMap) (k : Nat) : PMap :=
  let s1 := indexOp c s k
  match lookupKey s1.keyToNode_ k with
  | some v => update c s1 k (v + 1)
  | none => s1

/-- `--pm[key]` — `operator[]` then `Proxy::operator--`. -/
def bracketDecr (c : Cmp) (s : PMap) (k : Nat) : PMap :=
  let s1 := indexOp c s k
  match lookupKey s1.keyToNode_ k with
  | some v => update c s1 k (v - 1)
  | none => s1

/-- `pm[key] = v` — `operator[]` then `Proxy::operator=`, which runs
`update(key, v)`. -/
def bracketAssign (c : Cmp) (s : PMap) (k : Nat) (v : Int) : PMap :=
  update c (indexOp c s k) k v

/-- The `{newVal, {}}`-then-`keys.insert(key)` neighbour step of the older
header's `increment`/`decrement`: merge into the adjacent node when it holds
exactly `newVal`, otherwise splice a fresh node right here. -/
def stepIns (k : Nat) (newVal : Int) : List Bucket → List Bucket
  | [] => [⟨newVal, insKey k []⟩]
  | b :: bs =>
    if b.val = newVal then ⟨b.val, insKey k b.keys⟩ :: bs
    else ⟨newVal, insKey k []⟩ :: b :: bs

/-- The older header's dedicated `increment(key)`: remove the key, move it to
the immediately adjacent node in the direction of `comp(oldVal, oldVal+1)`
(splicing a fresh node when the neighbour's value is not `oldVal+1`), then
drop the vacated node if empty. -/
def increment (c : Cmp) (s : PMap) (k : Nat) : PMap :=
  match lookupKey s.keyToNode_ k with
  | none => s
  | some oldVal =>
    match splitAtVal oldVal s.nodeList_ with
    | none => s
    | some (pre, oldB, suf) =>
      let oldB' : Bucket := ⟨oldB.val, oldB.keys.erase k⟩
      let newVal := oldVal + 1
      let m' := setKey (eraseKey s.keyToNode_ k) k newVal
      if comp c oldVal newVal then
        { nodeList_ := pre ++ eraseBucketIfEmpty oldVal (oldB' :: stepIns k newVal suf),
          keyToNode_ := m' }
      else
        { nodeList_ :=
            (stepIns k newVal pre.reverse).reverse ++
              eraseBucketIfEmpty oldVal (oldB' :: suf),
          keyToNode_ := m' }

/-- The older header's `emplace(key, val)`: remove the key, scan the whole
list from its head for the first node at-or-past `val` in sort order, merge
or splice there, then drop the vacated node if empty. -/
def emplace (c : Cmp) (s : PMap) (k : Nat) (v : Int) : PMap :=
  match lookupKey s.keyToNode_ k with
  | none => s
  | some oldVal =>
    match splitAtVal oldVal s.nodeList_ with
    | none => s
    | some (pre, oldB, suf) =>
      let oldB' : Bucket := ⟨oldB.val, oldB.keys.erase k⟩
      let m' := setKey (eraseKey s.keyToNode_ k) k v
      { nodeList_ :=
          eraseBucketIfEmpty oldVal
            (scanInsert (emplacePred c v) v k (pre ++ oldB' :: suf)),
        keyToNode_ := m' }

/-- Well-formedness: the invariants of §3/§8 of the specification.  Adjacent
nodes satisfy the comparator (hence values are pairwise distinct), no node
has an empty key set, no key sits in two nodes, and the key index and the
node list name each other exactly. -/
def WF (c : Cmp) (s : PMap) : Prop :=
  List.Pairwise (fun a b => comp c a.val b.val = true) s.nodeList_ ∧
  (∀ b ∈ s.nodeList_, b.keys ≠ []) ∧
  (s.nodeList_.flatMap Bucket.keys).Nodup ∧
  (∀ p ∈ s.keyToNode_, ∃ b ∈ s.nodeList_, b.val = p.2 ∧ p.1 ∈ b.keys) ∧
  (∀ b ∈ s.nodeList_, ∀ k ∈ b.keys, lookupKey s.keyToNode_ k = some b.val)

instance (c : Cmp) (s : PMap) : Decidable (WF c s) := by
  unfold WF; infer_instance

/-- The states reachable through the public interface. -/
inductive Reach (c : Cmp) : PMap → Prop where
  | nil : Reach c { nodeList_ := [], keyToNode_ := [] }
  | touch {s : PMap} (k : Nat) : Reach c s → Reach c (indexOp c s k)
  | incrR {s : PMap} (k : Nat) : Reach c s → Reach c (bracketIncr c s k)
  | decrR {s : PMap} (k : Nat) : Reach c s → Reach c (bracketDecr c s k)
  | assignR {s : PMap} (k : Nat) (v : Int) : Reach c s → Reach c (bracketAssign c s k v)
  | popR {s : PMap} : Reach c s → Reach c (pop s).2
  | eraseR {s : PMap} (k : Nat) : Reach c s → Reach c (erase s k).2

/-! ## Order facts about the comparator -/

theorem comp_irrefl (c : Cmp) (a : Int) : comp c a a = false := by
  cases c <;> simp [comp]

theorem comp_trans {c : Cmp} {a b d : Int} (h1 : comp c a b = true)
    (h2 : comp c b d = true) : comp c a d = true := by
  cases c <;> simp [comp] at * <;> omega

theorem comp_total {c : Cmp} {a b : Int} (h1 : comp c a b = false) (h2 : a ≠ b) :
    comp c b a = true := by
  cases c <;> simp [comp] at * <;> omega

theorem comp_asymm {c : Cmp} {a b : Int} (h : comp c a b = true) :
    comp c b a = false := by
  cases c <;> simp [comp] at * <;> omega

theorem comp_ne {c : Cmp} {a b : Int} (h : comp c a b = true) : a ≠ b := by
  cases c <;> simp [comp] at * <;> omega

theorem fwdPred_eq (c : Cmp) (v : Int) (b : Bucket) :
    fwdPred c v b = !(comp c b.val v) := by
  cases c <;>
    simp only [fwdPred, comp] <;>
    norm_num <;>
    rw [← decide_not] <;>
    exact decide_eq_decide.mpr (by omega)

theorem bwdPred_eq (c : Cmp) (v : Int) (b : Bucket) :
    bwdPred c v b = !(comp c v b.val) := by
  cases c <;>
    simp only [bwdPred, comp] <;>
    norm_num <;>
    rw [← decide_not] <;>
    exact decide_eq_decide.mpr (by omega)

theorem emplacePred_eq_fwdPred (c : Cmp) (v : Int) (b : Bucket) :
    emplacePred c v b = fwdPred c v b := by
  cases c <;> simp [emplacePred, fwdPred, comp]

theorem zeroPred_eq_fwdPred (b : Bucket) : zeroPred b = fwdPred .lt 0 b := by
  simp [zeroPred, fwdPred, comp]

theorem zeroPred_eq_bwdPred (b : Bucket) : zeroPred b = bwdPred .gt 0 b := by
  simp [zeroPred, bwdPred, comp]

/-! ## Association-list lemmas for the key index -/

theorem lookup_eraseKey_self (m : List (Nat × Int)) (k : Nat) :
    lookupKey (eraseKey m k) k = none := by
  induction m with
  | nil => rfl
  | cons p m ih =>
    by_cases h : p.1 = k
    · simpa [eraseKey, h] using ih
    · simpa [eraseKey, lookupKey, h] using ih

theorem lookup_eraseKey_ne (m : List (Nat × Int)) {j k : Nat} (h : j ≠ k) :
    lookupKey (eraseKey m k) j = lookupKey m j := by
  induction m with
  | nil => rfl
  | cons p m ih =>
    by_cases hp : p.1 = k
    · have hpj : p.1 ≠ j := by rw [hp]; exact Ne.symm h
      rw [show eraseKey (p :: m) k = eraseKey m k from by simp [eraseKey, hp]]
      rw [ih, lookupKey, if_neg hpj]
    · rw [show eraseKey (p :: m) k = p :: eraseKey m k from by simp [eraseKey, hp]]
      by_cases hj : p.1 = j
      · rw [lookupKey, if_pos hj, lookupKey, if_pos hj]
      · rw [lookupKey, if_neg hj, lookupKey, if_neg hj, ih]

theorem lookup_setKey_self (m : List (Nat × Int)) (k : Nat) (v : Int) :
    lookupKey (setKey m k v) k = some v := by
  simp [setKey, lookupKey]

theorem lookup_setKey_ne (m : List (Nat × Int)) {j k : Nat} (v : Int) (h : j ≠ k) :
    lookupKey (setKey m k v) j = lookupKey m j := by
  have : k ≠ j := fun hh => h hh.symm
  simp [setKey, lookupKey, this, lookup_eraseKey_ne m h]

theorem lookupKey_mem {m : List (Nat × Int)} {k : Nat} {v : Int}
    (h : lookupKey m k = some v) : (k, v) ∈ m := by
  induction m with
  | nil => simp [lookupKey] at h
  | cons p m ih =>
    obtain ⟨a, b⟩ := p
    by_cases hp : a = k
    · subst hp
      simp [lookupKey] at h
      subst h
      exact List.mem_cons_self _ _
    · simp only [lookupKey, hp, if_false] at h
      exact List.mem_cons_of_mem _ (ih h)

theorem mem_eraseKey {m : List (Nat × Int)} {p : Nat × Int} {k : Nat}
    (h : p ∈ eraseKey m k) : p ∈ m ∧ p.1 ≠ k := by
  simp only [eraseKey, List.mem_filter, decide_not] at h
  refine ⟨h.1, by simpa using h.2⟩

/-! ## Splitting the node list at the referenced node -/

theorem splitAtVal_some {v : Int} {l pre suf : List Bucket} {ob : Bucket}
    (h : splitAtVal v l = some (pre, ob, suf)) :
    l = pre ++ ob :: suf ∧ ob.val = v ∧ ∀ x ∈ pre, x.val ≠ v := by
  induction l generalizing pre with
  | nil => simp [splitAtVal] at h
  | cons b bs ih =>
    by_cases hb : b.val = v
    · simp [splitAtVal, hb] at h
      obtain ⟨h1, h2, h3⟩ := h
      subst h1 h2 h3
      exact ⟨rfl, hb, by simp⟩
    · simp only [splitAtVal, hb, if_false] at h
      cases hs : splitAtVal v bs with
      | none => rw [hs] at h; simp at h
      | some t =>
        obtain ⟨pre1, ob1, suf1⟩ := t
        rw [hs] at h
        simp at h
        obtain ⟨h1, h2, h3⟩ := h
        subst h1 h2 h3
        obtain ⟨e1, e2, e3⟩ := ih hs
        refine ⟨by rw [e1]; rfl, e2, ?_⟩
        intro x hx
        rcases List.mem_cons.mp hx with hx | hx
        · rw [hx]; exact hb
        · exact e3 x hx

theorem splitAtVal_isSome {v : Int} {l : List Bucket} {b : Bucket}
    (hb : b ∈ l) (hv : b.val = v) :
    ∃ pre ob suf, splitAtVal v l = some (pre, ob, suf) := by
  induction l with
  | nil => simp at hb
  | cons a bs ih =>
    by_cases ha : a.val = v
    · exact ⟨[], a, bs, by simp [splitAtVal, ha]⟩
    · rcases List.mem_cons.mp hb with hb | hb
      · exact absurd (hb ▸ hv) ha
      · obtain ⟨pre, ob, suf, hs⟩ := ih hb
        exact ⟨a :: pre, ob, suf, by simp [splitAtVal, ha, hs]⟩

/-! ## Structural lemmas about the scan -/

theorem insKey_of_not_mem {k : Nat} {l : List Nat} (h : k ∉ l) :
    insKey k l = k :: l := by
  simp [insKey, h]

theorem insKey_ne_nil (k : Nat) (l : List Nat) : insKey k l ≠ [] := by
  by_cases h : k ∈ l
  · simp [insKey, h]; rintro rfl; simp at h
  · simp [insKey, h]

theorem mem_insKey_self (k : Nat) (l : List Nat) : k ∈ insKey k l := by
  by_cases h : k ∈ l <;> simp [insKey, h]

theorem mem_insKey_iff {j k : Nat} (l : List Nat) (h : j ≠ k) :
    j ∈ insKey k l ↔ j ∈ l := by
  by_cases hk : k ∈ l <;> simp [insKey, hk, h]

theorem scanInsert_nil (p : Bucket → Bool) (v : Int) (k : Nat) :
    scanInsert p v k [] = [⟨v, [k]⟩] := rfl

theorem scanInsert_cons_false {p : Bucket → Bool} {v : Int} {k : Nat}
    {b : Bucket} (bs : List Bucket) (hb : p b = false) :
    scanInsert p v k (b :: bs) = b :: scanInsert p v k bs := by
  simp [scanInsert, hb]

theorem scanInsert_cons_merge {p : Bucket → Bool} {v : Int} {k : Nat}
    {b : Bucket} (bs : List Bucket) (hb : p b = true) (hv : b.val = v) :
    scanInsert p v k (b :: bs) = ⟨b.val, insKey k b.keys⟩ :: bs := by
  simp [scanInsert, hb, hv]

theorem scanInsert_cons_new {p : Bucket → Bool} {v : Int} {k : Nat}
    {b : Bucket} (bs : List Bucket) (hb : p b = true) (hv : b.val ≠ v) :
    scanInsert p v k (b :: bs) = ⟨v, [k]⟩ :: b :: bs := by
  simp [scanInsert, hb, hv]

theorem scanInsert_skip {p : Bucket → Bool} {v : Int} {k : Nat}
    {l1 : List Bucket} (l2 : List Bucket) (h : ∀ x ∈ l1, p x = false) :
    scanInsert p v k (l1 ++ l2) = l1 ++ scanInsert p v k l2 := by
  induction l1 with
  | nil => rfl
  | cons b bs ih =>
    have hb : p b = false := h b (by simp)
    rw [List.cons_append, scanInsert_cons_false _ hb,
      ih (fun x hx => h x (List.mem_cons_of_mem _ hx))]
    rfl

theorem scanInsert_all_false {p : Bucket → Bool} {v : Int} {k : Nat}
    {l : List Bucket} (h : ∀ x ∈ l, p x = false) :
    scanInsert p v k l = l ++ [⟨v, [k]⟩] := by
  have := scanInsert_skip (p := p) (v := v) (k := k) [] h
  simpa using this

theorem scanInsert_stop {p : Bucket → Bool} {v : Int} {k : Nat}
    {l1 : List Bucket} (l2 : List Bucket) (h : ∃ x ∈ l1, p x = true) :
    scanInsert p v k (l1 ++ l2) = scanInsert p v k l1 ++ l2 := by
  induction l1 with
  | nil => simp at h
  | cons b bs ih =>
    by_cases hb : p b
    · by_cases hv : b.val = v
      · rw [List.cons_append, scanInsert_cons_merge _ hb hv,
          scanInsert_cons_merge _ hb hv, List.cons_append]
      · rw [List.cons_append, scanInsert_cons_new _ hb hv,
          scanInsert_cons_new _ hb hv, List.cons_append, List.cons_append]
    · have hb' : p b = false := by
        cases hpb : p b
        · rfl
        · exact absurd hpb hb
      obtain ⟨x, hx, hpx⟩ := h
      rcases List.mem_cons.mp hx with hx | hx
      · rw [hx] at hpx; rw [hpx] at hb'; simp at hb'
      · rw [List.cons_append, scanInsert_cons_false _ hb',
          scanInsert_cons_false _ hb', ih ⟨x, hx, hpx⟩, List.cons_append]

theorem scanInsert_origin {p : Bucket → Bool} {v : Int} {k : Nat}
    {l : List Bucket} {b' : Bucket} (h : b' ∈ scanInsert p v k l) :
    b' ∈ l ∨ b' = ⟨v, [k]⟩ ∨
      ∃ b0 ∈ l, b0.val = v ∧ b' = ⟨v, insKey k b0.keys⟩ := by
  induction l with
  | nil =>
    rw [scanInsert_nil] at h
    right; left; simpa using h
  | cons b bs ih =>
    by_cases hb : p b
    · by_cases hv : b.val = v
      · rw [scanInsert_cons_merge _ hb hv] at h
        rcases List.mem_cons.mp h with h | h
        · right; right; exact ⟨b, by simp, hv, by rw [h, hv]⟩
        · left; exact List.mem_cons_of_mem _ h
      · rw [scanInsert_cons_new _ hb hv] at h
        rcases List.mem_cons.mp h with h | h
        · right; left; exact h
        · left; exact h
    · have hb' : p b = false := by
        cases hpb : p b
        · rfl
        · exact absurd hpb hb
      rw [scanInsert_cons_false _ hb'] at h
      rcases List.mem_cons.mp h with h | h
      · left; simp [h]
      · rcases ih h with h | h | ⟨b0, hb0, hbv, hbe⟩
        · left; exact List.mem_cons_of_mem _ h
        · right; left; exact h
        · right; right; exact ⟨b0, List.mem_cons_of_mem _ hb0, hbv, hbe⟩

/-! ## Scans over a sorted node list -/

/-- Adjacent nodes of `nodeList_` always satisfy the comparator. -/
def Sorted (c : Cmp) (l : List Bucket) : Prop :=
  List.Pairwise (fun a b => comp c a.val b.val = true) l

theorem Sorted.of_wf {c : Cmp} {s : PMap} (h : WF c s) : Sorted c s.nodeList_ := h.1

theorem sorted_split (c : Cmp) (v : Int) {l : List Bucket} (hl : Sorted c l) :
    ∃ A B, l = A ++ B ∧ (∀ x ∈ A, comp c x.val v = true) ∧
      (∀ y ∈ B, comp c y.val v = false) := by
  induction l with
  | nil => exact ⟨[], [], rfl, by simp, by simp⟩
  | cons b bs ih =>
    obtain ⟨hbb, hbs⟩ := List.pairwise_cons.mp hl
    cases hc : comp c b.val v with
    | false =>
      refine ⟨[], b :: bs, rfl, by simp, ?_⟩
      intro y hy
      rcases List.mem_cons.mp hy with hy | hy
      · rw [hy]; exact hc
      · cases hyv : comp c y.val v with
        | false => rfl
        | true =>
          have hbv := comp_trans (hbb y hy) hyv
          rw [hbv] at hc; cases hc
    | true =>
      obtain ⟨A, B, he, hA, hB⟩ := ih hbs
      refine ⟨b :: A, B, by rw [he]; rfl, ?_, hB⟩
      intro x hx
      rcases List.mem_cons.mp hx with hx | hx
      · rw [hx]; exact hc
      · exact hA x hx

theorem scanInsert_sorted_char {c : Cmp} {p : Bucket → Bool} {v : Int} {k : Nat}
    {l : List Bucket} (hp : ∀ b, p b = !(comp c b.val v)) (hl : Sorted c l) :
    ∃ A K C, scanInsert p v k l = A ++ ⟨v, K⟩ :: C ∧
      (∀ x ∈ A, comp c x.val v = true) ∧
      (∀ y ∈ C, comp c v y.val = true) ∧
      ((l = A ++ C ∧ K = [k]) ∨
        ∃ b0, l = A ++ b0 :: C ∧ b0.val = v ∧ K = insKey k b0.keys) := by
  obtain ⟨A, B, he, hA, hB⟩ := sorted_split c v hl
  have hpA : ∀ x ∈ A, p x = false := by
    intro x hx; rw [hp, hA x hx]; rfl
  subst he
  rw [scanInsert_skip _ hpA]
  cases B with
  | nil =>
    rw [scanInsert_nil]
    exact ⟨A, [k], [], rfl, hA, by simp, Or.inl ⟨rfl, rfl⟩⟩
  | cons b0 B' =>
    have hb0 : comp c b0.val v = false := hB b0 (by simp)
    have hpb0 : p b0 = true := by rw [hp, hb0]; rfl
    have hsb : List.Pairwise (fun a b => comp c a.val b.val = true) (b0 :: B') :=
      (List.pairwise_append.mp hl).2.1
    have hb0B : ∀ y ∈ B', comp c b0.val y.val = true :=
      (List.pairwise_cons.mp hsb).1
    by_cases hv : b0.val = v
    · rw [scanInsert_cons_merge _ hpb0 hv]
      have hbeq : (⟨b0.val, insKey k b0.keys⟩ : Bucket) = ⟨v, insKey k b0.keys⟩ := by
        rw [hv]
      rw [hbeq]
      refine ⟨A, insKey k b0.keys, B', rfl, hA, ?_, Or.inr ⟨b0, rfl, hv, rfl⟩⟩
      intro y hy
      have := hb0B y hy
      rwa [hv] at this
    · rw [scanInsert_cons_new _ hpb0 hv]
      refine ⟨A, [k], b0 :: B', rfl, hA, ?_, Or.inl ⟨rfl, rfl⟩⟩
      intro y hy
      rcases List.mem_cons.mp hy with hy | hy
      · rw [hy]; exact comp_total hb0 hv
      · have hyv : comp c y.val v = false := hB y (List.mem_cons_of_mem _ hy)
        have hyne : y.val ≠ v := by
          intro he
          have := hb0B y hy
          rw [he] at this
          rw [this] at hb0; cases hb0
        exact comp_total hyv hyne

theorem scanInsert_sorted {c : Cmp} {p : Bucket → Bool} {v : Int} {k : Nat}
    {l : List Bucket} (hp : ∀ b, p b = !(comp c b.val v)) (hl : Sorted c l) :
    Sorted c (scanInsert p v k l) := by
  obtain ⟨A, K, C, hres, hA, hC, hcase⟩ := scanInsert_sorted_char hp hl
  have hsorted : Sorted c A ∧ Sorted c C := by
    rcases hcase with ⟨he, _⟩ | ⟨b0, he, _, _⟩
    · rw [he] at hl
      exact ⟨(List.pairwise_append.mp hl).1, (List.pairwise_append.mp hl).2.1⟩
    · rw [he] at hl
      exact ⟨(List.pairwise_append.mp hl).1,
        ((List.pairwise_cons.mp (List.pairwise_append.mp hl).2.1)).2⟩
  rw [hres]
  unfold Sorted
  rw [List.pairwise_append]
  refine ⟨hsorted.1, ?_, ?_⟩
  · rw [List.pairwise_cons]
    exact ⟨fun y hy => hC y hy, hsorted.2⟩
  · intro a ha b hb
    rcases List.mem_cons.mp hb with hb | hb
    · rw [hb]; exact hA a ha
    · exact comp_trans (hA a ha) (hC b hb)

theorem scanInsert_nonempty {p : Bucket → Bool} {v : Int} {k : Nat}
    {l : List Bucket} (h : ∀ b ∈ l, b.keys ≠ []) :
    ∀ b' ∈ scanInsert p v k l, b'.keys ≠ [] := by
  intro b' hb'
  rcases scanInsert_origin hb' with hm | hm | ⟨b0, _, _, hm⟩
  · exact h b' hm
  · rw [hm]; simp
  · rw [hm]; exact insKey_ne_nil _ _

theorem scanInsert_keys_perm {c : Cmp} {p : Bucket → Bool} {v : Int} {k : Nat}
    {l : List Bucket} (hp : ∀ b, p b = !(comp c b.val v)) (hl : Sorted c l)
    (hk : k ∉ l.flatMap Bucket.keys) :
    ((scanInsert p v k l).flatMap Bucket.keys).Perm (k :: l.flatMap Bucket.keys) := by
  obtain ⟨A, K, C, hres, _, _, hcase⟩ := scanInsert_sorted_char hp hl
  rcases hcase with ⟨he, hK⟩ | ⟨b0, he, _, hK⟩
  · subst hK
    rw [hres, he]
    simp only [List.flatMap_append, List.flatMap_cons, List.singleton_append]
    exact List.perm_middle
  · have hkb0 : k ∉ b0.keys := by
      intro hkk
      exact hk (by rw [he]; exact List.mem_flatMap.mpr ⟨b0, by simp, hkk⟩)
    rw [insKey_of_not_mem hkb0] at hK
    subst hK
    rw [hres, he]
    simp only [List.flatMap_append, List.flatMap_cons, List.cons_append]
    exact List.perm_middle

theorem scanInsert_mem_ne {c : Cmp} {p : Bucket → Bool} {v w : Int} {j k : Nat}
    {l : List Bucket} (hjk : j ≠ k)
    (hp : ∀ b, p b = !(comp c b.val v)) (hl : Sorted c l) :
    (∃ b' ∈ scanInsert p v k l, b'.val = w ∧ j ∈ b'.keys) ↔
      (∃ b ∈ l, b.val = w ∧ j ∈ b.keys) := by
  constructor
  · rintro ⟨b', hb', hbw, hbj⟩
    rcases scanInsert_origin hb' with hm | hm | ⟨b0, hb0, hb0v, hm⟩
    · exact ⟨b', hm, hbw, hbj⟩
    · rw [hm] at hbj
      simp at hbj
      exact absurd hbj hjk
    · rw [hm] at hbj hbw
      simp only at hbj hbw
      rw [mem_insKey_iff _ hjk] at hbj
      exact ⟨b0, hb0, by rw [hb0v, hbw], hbj⟩
  · rintro ⟨b, hb, hbw, hbj⟩
    obtain ⟨A, K, C, hres, _, _, hcase⟩ := scanInsert_sorted_char hp hl
    rcases hcase with ⟨he, _⟩ | ⟨b0, he, hb0v, hK⟩
    · rw [he] at hb
      rcases List.mem_append.mp hb with hb | hb
      · exact ⟨b, by rw [hres]; exact List.mem_append_left _ hb, hbw, hbj⟩
      · refine ⟨b, by rw [hres]; exact List.mem_append_right _ (List.mem_cons_of_mem _ hb),
          hbw, hbj⟩
    · rw [he] at hb
      rcases List.mem_append.mp hb with hb | hb
      · exact ⟨b, by rw [hres]; exact List.mem_append_left _ hb, hbw, hbj⟩
      · rcases List.mem_cons.mp hb with hb | hb
        · refine ⟨⟨v, K⟩, by rw [hres]; exact List.mem_append_right _ (by simp), ?_, ?_⟩
          · show v = w
            rw [← hb0v, ← hb]
            exact hbw
          · show j ∈ K
            rw [hK, mem_insKey_iff _ hjk]
            rw [hb] at hbj
            exact hbj
        · refine ⟨b, by rw [hres]; exact List.mem_append_right _ (List.mem_cons_of_mem _ hb),
            hbw, hbj⟩

theorem scanInsert_mem_self {c : Cmp} {p : Bucket → Bool} {v w : Int} {k : Nat}
    {l : List Bucket} (hp : ∀ b, p b = !(comp c b.val v)) (hl : Sorted c l)
    (hk : k ∉ l.flatMap Bucket.keys) :
    (∃ b' ∈ scanInsert p v k l, b'.val = w ∧ k ∈ b'.keys) ↔ w = v := by
  constructor
  · rintro ⟨b', hb', hbw, hbk⟩
    rcases scanInsert_origin hb' with hm | hm | ⟨b0, hb0, hb0v, hm⟩
    · exact absurd (List.mem_flatMap.mpr ⟨b', hm, hbk⟩) hk
    · rw [hm] at hbw; rw [← hbw]
    · rw [hm] at hbw; rw [← hbw]
  · rintro rfl
    obtain ⟨A, K, C, hres, _, _, hcase⟩ := scanInsert_sorted_char hp hl
    refine ⟨⟨w, K⟩, by rw [hres]; exact List.mem_append_right _ (by simp), rfl, ?_⟩
    rcases hcase with ⟨_, hK⟩ | ⟨b0, _, _, hK⟩
    · rw [hK]; simp
    · rw [hK]; exact mem_insKey_self _ _

/-! ## Removing a key from its node -/

theorem eraseFromBucket_split {v : Int} {k : Nat} {pre suf : List Bucket} {ob : Bucket}
    (hv : ob.val = v) (hpre : ∀ x ∈ pre, x.val ≠ v) :
    eraseFromBucket (pre ++ ob :: suf) v k =
      pre ++ (if (ob.keys.erase k).isEmpty then suf
              else ⟨ob.val, ob.keys.erase k⟩ :: suf) := by
  induction pre with
  | nil => simp [eraseFromBucket, hv]
  | cons x xs ih =>
    have hx : x.val ≠ v := hpre x (by simp)
    rw [List.cons_append, eraseFromBucket, if_neg hx,
      ih (fun y hy => hpre y (List.mem_cons_of_mem _ hy)), List.cons_append]

theorem eraseBucketIfEmpty_skip {v : Int} {l1 : List Bucket} (l2 : List Bucket)
    (h : ∀ x ∈ l1, x.val ≠ v) :
    eraseBucketIfEmpty v (l1 ++ l2) = l1 ++ eraseBucketIfEmpty v l2 := by
  induction l1 with
  | nil => rfl
  | cons x xs ih =>
    have hx : x.val ≠ v := h x (by simp)
    rw [List.cons_append, eraseBucketIfEmpty, if_neg hx,
      ih (fun y hy => h y (List.mem_cons_of_mem _ hy)), List.cons_append]

theorem eraseBucketIfEmpty_cons_hit {v : Int} (b : Bucket) (bs : List Bucket)
    (hv : b.val = v) :
    eraseBucketIfEmpty v (b :: bs) = if b.keys.isEmpty then bs else b :: bs := by
  rw [eraseBucketIfEmpty, if_pos hv]

/-- Locating the node holding a present key: the node list splits at the
unique node with the key's indexed value, and that node contains the key. -/
theorem locate_key {c : Cmp} {s : PMap} {k : Nat} {oldVal : Int}
    (hwf : WF c s) (hk : lookupKey s.keyToNode_ k = some oldVal) :
    ∃ pre ob suf, splitAtVal oldVal s.nodeList_ = some (pre, ob, suf) ∧
      s.nodeList_ = pre ++ ob :: suf ∧ ob.val = oldVal ∧
      (∀ x ∈ pre, x.val ≠ oldVal) ∧ k ∈ ob.keys := by
  obtain ⟨hsort, hne, hnd, h4, h5⟩ := hwf
  obtain ⟨bk, hbk, hbkv, hbkk⟩ := h4 (k, oldVal) (lookupKey_mem hk)
  obtain ⟨pre, ob, suf, hsplit⟩ := splitAtVal_isSome hbk hbkv
  obtain ⟨he, hobv, hprev⟩ := splitAtVal_some hsplit
  refine ⟨pre, ob, suf, hsplit, he, hobv, hprev, ?_⟩
  have hbk_eq : bk = ob := by
    rw [he] at hbk
    rcases List.mem_append.mp hbk with h | h
    · exact absurd hbkv (hprev bk h)
    · rcases List.mem_cons.mp h with h | h
      · exact h
      · rw [he] at hsort
        have hcross := (List.pairwise_append.mp hsort).2.1
        have hcomp := (List.pairwise_cons.mp hcross).1 bk h
        have hne2 := comp_ne hcomp
        rw [hobv, hbkv] at hne2
        exact absurd rfl hne2
  exact hbk_eq ▸ hbkk

/-- Everything the insertion step needs to know about the state after a
present key has been removed from its node and from the index. -/
theorem cleaned_wf {c : Cmp} {s : PMap} {k : Nat} {oldVal : Int}
    (hwf : WF c s) (hk : lookupKey s.keyToNode_ k = some oldVal) :
    Sorted c (eraseFromBucket s.nodeList_ oldVal k) ∧
    (∀ b ∈ eraseFromBucket s.nodeList_ oldVal k, b.keys ≠ []) ∧
    ((eraseFromBucket s.nodeList_ oldVal k).flatMap Bucket.keys).Nodup ∧
    k ∉ (eraseFromBucket s.nodeList_ oldVal k).flatMap Bucket.keys ∧
    (∀ p ∈ eraseKey s.keyToNode_ k,
      ∃ b ∈ eraseFromBucket s.nodeList_ oldVal k, b.val = p.2 ∧ p.1 ∈ b.keys) ∧
    (∀ b ∈ eraseFromBucket s.nodeList_ oldVal k, ∀ j ∈ b.keys,
      lookupKey (eraseKey s.keyToNode_ k) j = some b.val) ∧
    (∀ j w, j ≠ k →
      ((∃ b ∈ eraseFromBucket s.nodeList_ oldVal k, b.val = w ∧ j ∈ b.keys) ↔
        (∃ b ∈ s.nodeList_, b.val = w ∧ j ∈ b.keys))) := by
  obtain ⟨pre, ob, suf, hsplit, he, hobv, hprev, hkob⟩ := locate_key hwf hk
  obtain ⟨hsort, hne, hnd, h4, h5⟩ := hwf
  rw [he] at hsort hne hnd ⊢
  have h4' : ∀ p ∈ s.keyToNode_, ∃ b ∈ pre ++ ob :: suf, b.val = p.2 ∧ p.1 ∈ b.keys := by
    intro p hp; rw [← he]; exact h4 p hp
  have h5' : ∀ b ∈ pre ++ ob :: suf, ∀ j ∈ b.keys, lookupKey s.keyToNode_ j = some b.val := by
    intro b hb; rw [← he] at hb; exact h5 b hb
  rw [eraseFromBucket_split hobv hprev]
  -- decompose the sortedness and key-disjointness facts
  have hsp : Sorted c pre := (List.pairwise_append.mp hsort).1
  have hsos := (List.pairwise_append.mp hsort).2.1
  have hcross := (List.pairwise_append.mp hsort).2.2
  have hos : ∀ y ∈ suf, comp c ob.val y.val = true := (List.pairwise_cons.mp hsos).1
  have hss : Sorted c suf := (List.pairwise_cons.mp hsos).2
  have hndfm : (pre.flatMap Bucket.keys ++ (ob.keys ++ suf.flatMap Bucket.keys)).Nodup := by
    simpa [List.flatMap_append, List.flatMap_cons] using hnd
  have hnp := (List.nodup_append.mp hndfm).1
  have hd1 := (List.nodup_append.mp hndfm).2.2
  have hrest := (List.nodup_append.mp hndfm).2.1
  have hndo : ob.keys.Nodup := (List.nodup_append.mp hrest).1
  have hnds : (suf.flatMap Bucket.keys).Nodup := (List.nodup_append.mp hrest).2.1
  have hd2 := (List.nodup_append.mp hrest).2.2
  have hkpre : k ∉ pre.flatMap Bucket.keys := by
    intro hkp
    exact (hd1 hkp) (List.mem_append_left _ hkob)
  have hksuf : k ∉ suf.flatMap Bucket.keys := hd2 hkob
  have hker : k ∉ ob.keys.erase k := by
    intro hke
    exact ((hndo.mem_erase_iff).mp hke).1 rfl
  have hjer : ∀ j, j ≠ k → (j ∈ ob.keys.erase k ↔ j ∈ ob.keys) := by
    intro j hj
    exact List.mem_erase_of_ne hj
  have hjpre_ne : ∀ b ∈ pre, ∀ j ∈ b.keys, j ≠ k := by
    intro b hb j hjb hj
    exact hkpre (List.mem_flatMap.mpr ⟨b, hb, hj ▸ hjb⟩)
  have hjsuf_ne : ∀ b ∈ suf, ∀ j ∈ b.keys, j ≠ k := by
    intro b hb j hjb hj
    exact hksuf (List.mem_flatMap.mpr ⟨b, hb, hj ▸ hjb⟩)
  by_cases em : (ob.keys.erase k).isEmpty
  · have her : ob.keys.erase k = [] := List.isEmpty_iff.mp em
    rw [if_pos em]
    refine ⟨?_, ?_, ?_, ?_, ?_, ?_, ?_⟩
    · exact List.pairwise_append.mpr ⟨hsp, hss,
        fun a ha b hb => hcross a ha b (List.mem_cons_of_mem _ hb)⟩
    · intro b hb
      rcases List.mem_append.mp hb with hb | hb
      · exact hne b (List.mem_append_left _ hb)
      · exact hne b (List.mem_append_right _ (List.mem_cons_of_mem _ hb))
    · have hsub : ((pre ++ suf).flatMap Bucket.keys).Sublist
          ((pre ++ ob :: suf).flatMap Bucket.keys) := by
        simp only [List.flatMap_append, List.flatMap_cons]
        exact List.Sublist.append (List.Sublist.refl _) (List.sublist_append_right _ _)
      exact hsub.nodup (by simpa [List.flatMap_append, List.flatMap_cons] using hndfm)
    · intro hkm
      rw [List.flatMap_append] at hkm
      rcases List.mem_append.mp hkm with h | h
      · exact hkpre h
      · exact hksuf h
    · intro p hp
      obtain ⟨hpm, hpk⟩ := mem_eraseKey hp
      obtain ⟨b, hb, hbv, hbj⟩ := h4' p hpm
      rcases List.mem_append.mp hb with hb | hb
      · exact ⟨b, List.mem_append_left _ hb, hbv, hbj⟩
      · rcases List.mem_cons.mp hb with hb | hb
        · exfalso
          rw [hb] at hbj
          have : p.1 ∈ ob.keys.erase k := (hjer p.1 hpk).mpr hbj
          rw [her] at this
          simp at this
        · exact ⟨b, List.mem_append_right _ hb, hbv, hbj⟩
    · intro b hb j hjb
      rcases List.mem_append.mp hb with hb | hb
      · have hj := hjpre_ne b hb j hjb
        rw [lookup_eraseKey_ne _ hj]
        exact h5' b (List.mem_append_left _ hb) j hjb
      · have hj := hjsuf_ne b hb j hjb
        rw [lookup_eraseKey_ne _ hj]
        exact h5' b (List.mem_append_right _ (List.mem_cons_of_mem _ hb)) j hjb
    · intro j w hj
      constructor
      · rintro ⟨b, hb, hbv, hbj⟩
        rcases List.mem_append.mp hb with hb | hb
        · exact ⟨b, List.mem_append_left _ hb, hbv, hbj⟩
        · exact ⟨b, List.mem_append_right _ (List.mem_cons_of_mem _ hb), hbv, hbj⟩
      · rintro ⟨b, hb, hbv, hbj⟩
        rcases List.mem_append.mp hb with hb | hb
        · exact ⟨b, List.mem_append_left _ hb, hbv, hbj⟩
        · rcases List.mem_cons.mp hb with hb | hb
          · exfalso
            rw [hb] at hbj
            have : j ∈ ob.keys.erase k := (hjer j hj).mpr hbj
            rw [her] at this
            simp at this
          · exact ⟨b, List.mem_append_right _ hb, hbv, hbj⟩
  · have hemf : (ob.keys.erase k).isEmpty = false := by
      cases hh : (ob.keys.erase k).isEmpty
      · rfl
      · exact absurd hh em
    rw [if_neg (by rw [hemf]; exact Bool.false_ne_true)]
    have hobe : (⟨ob.val, ob.keys.erase k⟩ : Bucket).keys = ob.keys.erase k := rfl
    refine ⟨?_, ?_, ?_, ?_, ?_, ?_, ?_⟩
    · refine List.pairwise_append.mpr ⟨hsp, ?_, ?_⟩
      · exact List.pairwise_cons.mpr ⟨fun y hy => hos y hy, hss⟩
      · intro a ha b hb
        rcases List.mem_cons.mp hb with hb | hb
        · rw [hb]
          exact hcross a ha ob (by simp)
        · exact hcross a ha b (List.mem_cons_of_mem _ hb)
    · intro b hb
      rcases List.mem_append.mp hb with hb | hb
      · exact hne b (List.mem_append_left _ hb)
      · rcases List.mem_cons.mp hb with hb | hb
        · rw [hb, hobe]
          intro hnil
          rw [hnil] at hemf
          simp at hemf
        · exact hne b (List.mem_append_right _ (List.mem_cons_of_mem _ hb))
    · have hsub : ((pre ++ ⟨ob.val, ob.keys.erase k⟩ :: suf).flatMap Bucket.keys).Sublist
          ((pre ++ ob :: suf).flatMap Bucket.keys) := by
        simp only [List.flatMap_append, List.flatMap_cons, hobe]
        exact List.Sublist.append (List.Sublist.refl _)
          (List.Sublist.append (List.erase_sublist _ _) (List.Sublist.refl _))
      exact hsub.nodup (by simpa [List.flatMap_append, List.flatMap_cons] using hndfm)
    · intro hkm
      simp only [List.flatMap_append, List.flatMap_cons, hobe] at hkm
      rcases List.mem_append.mp hkm with h | h
      · exact hkpre h
      · rcases List.mem_append.mp h with h | h
        · exact hker h
        · exact hksuf h
    · intro p hp
      obtain ⟨hpm, hpk⟩ := mem_eraseKey hp
      obtain ⟨b, hb, hbv, hbj⟩ := h4' p hpm
      rcases List.mem_append.mp hb with hb | hb
      · exact ⟨b, List.mem_append_left _ hb, hbv, hbj⟩
      · rcases List.mem_cons.mp hb with hb | hb
        · refine ⟨⟨ob.val, ob.keys.erase k⟩, List.mem_append_right _ (by simp), ?_, ?_⟩
          · rw [← hbv, hb]
          · rw [hobe, hjer p.1 hpk, ← hb]
            exact hbj
        · exact ⟨b, List.mem_append_right _ (List.mem_cons_of_mem _ hb), hbv, hbj⟩
    · intro b hb j hjb
      rcases List.mem_append.mp hb with hb | hb
      · have hj := hjpre_ne b hb j hjb
        rw [lookup_eraseKey_ne _ hj]
        exact h5' b (List.mem_append_left _ hb) j hjb
      · rcases List.mem_cons.mp hb with hb | hb
        · rw [hb, hobe] at hjb
          have hj : j ≠ k := ((hndo.mem_erase_iff).mp hjb).1
          rw [lookup_eraseKey_ne _ hj]
          have : lookupKey s.keyToNode_ j = some ob.val :=
            h5' ob (List.mem_append_right _ (by simp)) j ((hjer j hj).mp hjb)
          rw [this, hb]
        · have hj := hjsuf_ne b hb j hjb
          rw [lookup_eraseKey_ne _ hj]
          exact h5' b (List.mem_append_right _ (List.mem_cons_of_mem _ hb)) j hjb
    · intro j w hj
      constructor
      · rintro ⟨b, hb, hbv, hbj⟩
        rcases List.mem_append.mp hb with hb | hb
        · exact ⟨b, List.mem_append_left _ hb, hbv, hbj⟩
        · rcases List.mem_cons.mp hb with hb | hb
          · rw [hb, hobe] at hbj
            refine ⟨ob, List.mem_append_right _ (by simp), ?_, (hjer j hj).mp hbj⟩
            rw [← hbv, hb]
          · exact ⟨b, List.mem_append_right _ (List.mem_cons_of_mem _ hb), hbv, hbj⟩
      · rintro ⟨b, hb, hbv, hbj⟩
        rcases List.mem_append.mp hb with hb | hb
        · exact ⟨b, List.mem_append_left _ hb, hbv, hbj⟩
        · rcases List.mem_cons.mp hb with hb | hb
          · refine ⟨⟨ob.val, ob.keys.erase k⟩, List.mem_append_right _ (by simp), ?_, ?_⟩
            · rw [← hbv, hb]
            · rw [hobe, hjer j hj, ← hb]
              exact hbj
          · exact ⟨b, List.mem_append_right _ (List.mem_cons_of_mem _ hb), hbv, hbj⟩

/-! ## Well-formedness of the insertion step -/

/-- Inserting a fresh key at value `v` by the forward sorted scan rebuilds a
well-formed state around the updated index. -/
theorem glob_wf {c : Cmp} {L : List Bucket} {m2 : List (Nat × Int)} {k : Nat} {v : Int}
    (hs : Sorted c L) (hne : ∀ b ∈ L, b.keys ≠ [])
    (hnd : (L.flatMap Bucket.keys).Nodup) (hk : k ∉ L.flatMap Bucket.keys)
    (h4 : ∀ p ∈ m2, ∃ b ∈ L, b.val = p.2 ∧ p.1 ∈ b.keys)
    (h5 : ∀ b ∈ L, ∀ j ∈ b.keys, lookupKey m2 j = some b.val) :
    WF c { nodeList_ := scanInsert (fwdPred c v) v k L, keyToNode_ := setKey m2 k v } := by
  have hp : ∀ b, fwdPred c v b = !(comp c b.val v) := fwdPred_eq c v
  refine ⟨?_, ?_, ?_, ?_, ?_⟩
  · exact scanInsert_sorted hp hs
  · exact fun b hb => scanInsert_nonempty hne b hb
  · have hperm := scanInsert_keys_perm hp hs hk
    exact hperm.symm.nodup (List.nodup_cons.mpr ⟨hk, hnd⟩)
  · intro p hp'
    rcases List.mem_cons.mp hp' with hp' | hp'
    · rw [hp']
      obtain ⟨b', hb', hbv, hbk⟩ := (scanInsert_mem_self hp hs hk).mpr rfl
      exact ⟨b', hb', hbv, hbk⟩
    · obtain ⟨hpm, hpk⟩ := mem_eraseKey hp'
      obtain ⟨b, hb, hbv, hbj⟩ := h4 p hpm
      exact (scanInsert_mem_ne hpk hp hs).mpr ⟨b, hb, hbv, hbj⟩
  · intro b' hb' j hjb
    by_cases hj : j = k
    · rw [hj, lookup_setKey_self]
      have hmem2 : ∃ bb ∈ scanInsert (fwdPred c v) v k L, bb.val = b'.val ∧ k ∈ bb.keys :=
        ⟨b', hb', rfl, hj ▸ hjb⟩
      have hv := (scanInsert_mem_self hp hs hk).mp hmem2
      rw [hv]
    · rw [lookup_setKey_ne _ _ hj]
      rcases scanInsert_origin hb' with hm | hm | ⟨b0, hb0, hb0v, hm⟩
      · exact h5 b' hm j hjb
      · exfalso
        rw [hm] at hjb
        simp at hjb
        exact hj hjb
      · rw [hm] at hjb
        have hjb0 : j ∈ b0.keys := by
          have : j ∈ insKey k b0.keys := hjb
          exact (mem_insKey_iff _ hj).mp this
        have := h5 b0 hb0 j hjb0
        rw [this, hm, hb0v]

/-! ## The backward scan agrees with the forward scan on sorted lists -/

theorem revScan_lastIns {c : Cmp} {v : Int} {k : Nat} {A : List Bucket}
    (hbpA : ∀ x ∈ A, bwdPred c v x = true) (hAv : ∀ x ∈ A, x.val ≠ v) :
    scanInsert (bwdPred c v) v k A.reverse = (A ++ [(⟨v, [k]⟩ : Bucket)]).reverse := by
  cases hAr : A.reverse with
  | nil =>
    have hA0 : A = [] := by simpa using congrArg List.reverse hAr
    subst hA0
    simp [scanInsert_nil]
  | cons a as =>
    have haA : a ∈ A := List.mem_reverse.mp (by rw [hAr]; simp)
    rw [scanInsert_cons_new _ (hbpA a haA) (hAv a haA)]
    have hAeq : A = as.reverse ++ [a] := by simpa using congrArg List.reverse hAr
    rw [hAeq]
    simp

theorem revScan_eq_fwdScan {c : Cmp} (v : Int) (k : Nat) {l : List Bucket}
    (hl : Sorted c l) :
    (scanInsert (bwdPred c v) v k l.reverse).reverse =
      scanInsert (fwdPred c v) v k l := by
  have hfp : ∀ b, fwdPred c v b = !(comp c b.val v) := fwdPred_eq c v
  have hbp : ∀ b, bwdPred c v b = !(comp c v b.val) := bwdPred_eq c v
  obtain ⟨A, B, he, hA, hB⟩ := sorted_split c v hl
  subst he
  have hfpA : ∀ x ∈ A, fwdPred c v x = false := by
    intro x hx; rw [hfp, hA x hx]; rfl
  have hAv : ∀ x ∈ A, x.val ≠ v := fun x hx => comp_ne (hA x hx)
  have hbpA : ∀ x ∈ A, bwdPred c v x = true := by
    intro x hx; rw [hbp, comp_asymm (hA x hx)]; rfl
  rw [scanInsert_skip _ hfpA]
  cases B with
  | nil =>
    rw [scanInsert_nil, List.append_nil, revScan_lastIns hbpA hAv]
    simp
  | cons b0 B' =>
    have hb0 : comp c b0.val v = false := hB b0 (by simp)
    have hB' : ∀ y ∈ B', comp c y.val v = false :=
      fun y hy => hB y (List.mem_cons_of_mem _ hy)
    have hfpb0 : fwdPred c v b0 = true := by rw [hfp, hb0]; rfl
    have hlp : List.Pairwise (fun a b => comp c a.val b.val = true) (A ++ b0 :: B') := hl
    have hsB := (List.pairwise_append.mp hlp).2.1
    have hb0B' : ∀ y ∈ B', comp c b0.val y.val = true := (List.pairwise_cons.mp hsB).1
    by_cases hv : b0.val = v
    · have hbpB' : ∀ y ∈ B', bwdPred c v y = false := by
        intro y hy
        rw [hbp]
        have hcy : comp c v y.val = true := by rw [← hv]; exact hb0B' y hy
        rw [hcy]; rfl
      have hbpb0 : bwdPred c v b0 = true := by
        rw [hbp, hv, comp_irrefl]; rfl
      rw [scanInsert_cons_merge _ hfpb0 hv]
      rw [show (A ++ b0 :: B').reverse = B'.reverse ++ b0 :: A.reverse from by simp]
      rw [scanInsert_skip _ (fun y hy => hbpB' y (List.mem_reverse.mp hy)),
        scanInsert_cons_merge _ hbpb0 hv]
      simp
    · have hvB : ∀ y ∈ B', y.val ≠ v := by
        intro y hy he2
        have h1 := hb0B' y hy
        rw [he2] at h1
        rw [h1] at hb0
        cases hb0
      have hbpb0 : bwdPred c v b0 = false := by
        rw [hbp, comp_total hb0 hv]; rfl
      have hbpB : ∀ y ∈ B', bwdPred c v y = false := by
        intro y hy
        rw [hbp, comp_total (hB' y hy) (hvB y hy)]; rfl
      rw [scanInsert_cons_new _ hfpb0 hv]
      rw [show (A ++ b0 :: B').reverse = B'.reverse ++ b0 :: A.reverse from by simp]
      rw [scanInsert_skip _ (fun y hy => hbpB y (List.mem_reverse.mp hy)),
        scanInsert_cons_false _ hbpb0, revScan_lastIns hbpA hAv]
      simp

/-! ## Normal form of the mutating operations -/

theorem scanInsert_head_new {c : Cmp} {v : Int} {k : Nat} {L2 : List Bucket}
    (h : ∀ y ∈ L2, comp c v y.val = true) :
    scanInsert (fwdPred c v) v k L2 = ⟨v, [k]⟩ :: L2 := by
  cases L2 with
  | nil => rw [scanInsert_nil]
  | cons y ys =>
    have hy := h y (by simp)
    have hfp : fwdPred c v y = true := by
      rw [fwdPred_eq, comp_asymm hy]; rfl
    have hvy : y.val ≠ v := Ne.symm (comp_ne hy)
    rw [scanInsert_cons_new _ hfp hvy]

theorem all_false_of_not_exists {p : Bucket → Bool} {l : List Bucket}
    (h : ¬ ∃ x ∈ l, p x = true) : ∀ x ∈ l, p x = false := by
  intro x hx
  cases hfx : p x with
  | false => rfl
  | true => exact absurd ⟨x, hx, hfx⟩ h

/-- The general `update` is: remove the key from its node, then re-insert it
by the single forward sorted scan over the remaining list.  The scan that
starts at the vacated position (and the backward scan through reverse
iterators) lands exactly where the full scan lands. -/
theorem update_nf {c : Cmp} {s : PMap} {k : Nat} {oldVal newVal : Int}
    (hwf : WF c s) (hk : lookupKey s.keyToNode_ k = some oldVal)
    (hne : oldVal ≠ newVal) :
    update c s k newVal =
      { nodeList_ :=
          scanInsert (fwdPred c newVal) newVal k (eraseFromBucket s.nodeList_ oldVal k),
        keyToNode_ := setKey (eraseKey s.keyToNode_ k) k newVal } := by
  obtain ⟨pre, ob, suf, hsplit, he, hobv, hprev, hkob⟩ := locate_key hwf hk
  have hsort : Sorted c s.nodeList_ := hwf.1
  rw [he] at hsort
  have hlp : List.Pairwise (fun a b => comp c a.val b.val = true) (pre ++ ob :: suf) := hsort
  have hsp : Sorted c pre := (List.pairwise_append.mp hlp).1
  have hpre_old : ∀ x ∈ pre, comp c x.val ob.val = true :=
    fun x hx => (List.pairwise_append.mp hlp).2.2 x hx ob (by simp)
  have hsuf_old : ∀ y ∈ suf, comp c ob.val y.val = true :=
    (List.pairwise_cons.mp (List.pairwise_append.mp hlp).2.1).1
  have hrhs : eraseFromBucket s.nodeList_ oldVal k =
      pre ++ (if (ob.keys.erase k).isEmpty then suf
              else ⟨ob.val, ob.keys.erase k⟩ :: suf) := by
    rw [he, eraseFromBucket_split hobv hprev]
  simp only [update, hk, if_neg hne, hsplit]
  rw [hrhs]
  by_cases hcmp : comp c oldVal newVal = true
  · rw [if_pos hcmp]
    have hfob : fwdPred c newVal ⟨ob.val, ob.keys.erase k⟩ = false := by
      rw [fwdPred_eq]
      show (!(comp c ob.val newVal)) = false
      rw [hobv, hcmp]; rfl
    rw [scanInsert_cons_false _ hfob,
      eraseBucketIfEmpty_cons_hit ⟨ob.val, ob.keys.erase k⟩ _ hobv]
    have hfpre : ∀ x ∈ pre, fwdPred c newVal x = false := by
      intro x hx
      rw [fwdPred_eq, comp_trans (hobv ▸ hpre_old x hx) hcmp]; rfl
    rw [scanInsert_skip _ hfpre]
    rw [PMap.mk.injEq]
    refine ⟨?_, rfl⟩
    by_cases em : (ob.keys.erase k).isEmpty
    · rw [if_pos em, if_pos em]
    · rw [if_neg em, if_neg em]
      have hfob2 : fwdPred c newVal ⟨ob.val, ob.keys.erase k⟩ = false := hfob
      rw [scanInsert_cons_false _ hfob2]
  · have hcmpf : comp c oldVal newVal = false := by
      cases hq : comp c oldVal newVal
      · rfl
      · exact absurd hq hcmp
    rw [if_neg hcmp]
    have hno : comp c newVal oldVal = true := comp_total hcmpf hne
    rw [revScan_eq_fwdScan newVal k hsp,
      eraseBucketIfEmpty_cons_hit ⟨ob.val, ob.keys.erase k⟩ _ hobv]
    rw [PMap.mk.injEq]
    refine ⟨?_, rfl⟩
    by_cases hstop : ∃ x ∈ pre, fwdPred c newVal x = true
    · rw [scanInsert_stop _ hstop]
    · have hall := all_false_of_not_exists hstop
      rw [scanInsert_skip _ hall, scanInsert_all_false hall]
      have htail : ∀ y ∈ (if (ob.keys.erase k).isEmpty then suf
          else ⟨ob.val, ob.keys.erase k⟩ :: suf), comp c newVal y.val = true := by
        intro y hy
        by_cases em : (ob.keys.erase k).isEmpty
        · rw [if_pos em] at hy
          exact comp_trans hno (hobv ▸ hsuf_old y hy)
        · rw [if_neg em] at hy
          rcases List.mem_cons.mp hy with hy | hy
          · rw [hy]
            show comp c newVal ob.val = true
            rw [hobv]; exact hno
          · exact comp_trans hno (hobv ▸ hsuf_old y hy)
      rw [scanInsert_head_new htail]
      simp

/-- The older header's `emplace` also reduces to remove-then-forward-scan:
its whole-list scan walks past the part before the vacated node unchanged. -/
theorem emplace_nf {c : Cmp} {s : PMap} {k : Nat} {oldVal v : Int}
    (hwf : WF c s) (hk : lookupKey s.keyToNode_ k = some oldVal)
    (hne : oldVal ≠ v) :
    emplace c s k v =
      { nodeList_ :=
          scanInsert (fwdPred c v) v k (eraseFromBucket s.nodeList_ oldVal k),
        keyToNode_ := setKey (eraseKey s.keyToNode_ k) k v } := by
  obtain ⟨pre, ob, suf, hsplit, he, hobv, hprev, hkob⟩ := locate_key hwf hk
  have hsort : Sorted c s.nodeList_ := hwf.1
  rw [he] at hsort
  have hlp : List.Pairwise (fun a b => comp c a.val b.val = true) (pre ++ ob :: suf) := hsort
  have hpre_old : ∀ x ∈ pre, comp c x.val ob.val = true :=
    fun x hx => (List.pairwise_append.mp hlp).2.2 x hx ob (by simp)
  have hsuf_old : ∀ y ∈ suf, comp c ob.val y.val = true :=
    (List.pairwise_cons.mp (List.pairwise_append.mp hlp).2.1).1
  have hrhs : eraseFromBucket s.nodeList_ oldVal k =
      pre ++ (if (ob.keys.erase k).isEmpty then suf
              else ⟨ob.val, ob.keys.erase k⟩ :: suf) := by
    rw [he, eraseFromBucket_split hobv hprev]
  have hpe : emplacePred c v = fwdPred c v := funext (emplacePred_eq_fwdPred c v)
  simp only [emplace, hk, hsplit, hpe]
  rw [hrhs, PMap.mk.injEq]
  refine ⟨?_, rfl⟩
  by_cases hcmp : comp c oldVal v = true
  · have hfob : fwdPred c v ⟨ob.val, ob.keys.erase k⟩ = false := by
      rw [fwdPred_eq]
      show (!(comp c ob.val v)) = false
      rw [hobv, hcmp]; rfl
    have hfpre : ∀ x ∈ pre, fwdPred c v x = false := by
      intro x hx
      rw [fwdPred_eq, comp_trans (hobv ▸ hpre_old x hx) hcmp]; rfl
    rw [scanInsert_skip _ hfpre, scanInsert_cons_false _ hfob,
      eraseBucketIfEmpty_skip _ hprev,
      eraseBucketIfEmpty_cons_hit ⟨ob.val, ob.keys.erase k⟩ _ hobv,
      scanInsert_skip _ hfpre]
    by_cases em : (ob.keys.erase k).isEmpty
    · rw [if_pos em, if_pos em]
    · rw [if_neg em, if_neg em, scanInsert_cons_false _ hfob]
  · have hcmpf : comp c oldVal v = false := by
      cases hq : comp c oldVal v
      · rfl
      · exact absurd hq hcmp
    have hno : comp c v oldVal = true := comp_total hcmpf hne
    have hvne : v ≠ oldVal := Ne.symm hne
    by_cases hstop : ∃ x ∈ pre, fwdPred c v x = true
    · have hscanpre_ne : ∀ x ∈ scanInsert (fwdPred c v) v k pre, x.val ≠ oldVal := by
        intro x hx
        rcases scanInsert_origin hx with hm | hm | ⟨b0, hb0, _, hm⟩
        · exact hprev x hm
        · rw [hm]; exact hvne
        · rw [hm]; exact hvne
      rw [scanInsert_stop _ hstop, eraseBucketIfEmpty_skip _ hscanpre_ne,
        eraseBucketIfEmpty_cons_hit ⟨ob.val, ob.keys.erase k⟩ _ hobv,
        scanInsert_stop _ hstop]
    · have hall := all_false_of_not_exists hstop
      have hfob : fwdPred c v ⟨ob.val, ob.keys.erase k⟩ = true := by
        rw [fwdPred_eq]
        show (!(comp c ob.val v)) = true
        rw [hobv, hcmpf]; rfl
      have hobne : (⟨ob.val, ob.keys.erase k⟩ : Bucket).val ≠ v := by
        show ob.val ≠ v
        rw [hobv]; exact hne
      have htail : ∀ y ∈ (if (ob.keys.erase k).isEmpty then suf
          else (⟨ob.val, ob.keys.erase k⟩ : Bucket) :: suf), comp c v y.val = true := by
        intro y hy
        by_cases em : (ob.keys.erase k).isEmpty
        · rw [if_pos em] at hy
          exact comp_trans hno (hobv ▸ hsuf_old y hy)
        · rw [if_neg em] at hy
          rcases List.mem_cons.mp hy with hy | hy
          · rw [hy]
            show comp c v ob.val = true
            rw [hobv]; exact hno
          · exact comp_trans hno (hobv ▸ hsuf_old y hy)
      rw [scanInsert_skip _ hall, scanInsert_cons_new _ hfob hobne,
        show pre ++ (⟨v, [k]⟩ : Bucket) :: (⟨ob.val, ob.keys.erase k⟩ : Bucket) :: suf =
          (pre ++ [(⟨v, [k]⟩ : Bucket)]) ++
            (⟨ob.val, ob.keys.erase k⟩ : Bucket) :: suf from by simp]
      have hskip2 : ∀ x ∈ pre ++ [(⟨v, [k]⟩ : Bucket)], x.val ≠ oldVal := by
        intro x hx
        rcases List.mem_append.mp hx with hx | hx
        · exact hprev x hx
        · rw [List.mem_singleton.mp hx]; exact hvne
      rw [eraseBucketIfEmpty_skip _ hskip2,
        eraseBucketIfEmpty_cons_hit ⟨ob.val, ob.keys.erase k⟩ _ hobv,
        scanInsert_skip _ hall, scanInsert_head_new htail]
      simp

theorem stepIns_eq_scanInsert_lt {k : Nat} {oldVal : Int} {suf : List Bucket}
    (hy : ∀ y ∈ suf, comp .lt oldVal y.val = true) :
    stepIns k (oldVal + 1) suf =
      scanInsert (fwdPred .lt (oldVal + 1)) (oldVal + 1) k suf := by
  cases suf with
  | nil =>
    rw [scanInsert_nil]
    show [(⟨oldVal + 1, insKey k []⟩ : Bucket)] = _
    simp [insKey]
  | cons y ys =>
    have h1 : oldVal < y.val := by simpa [comp] using hy y (by simp)
    have hfp : fwdPred .lt (oldVal + 1) y = true := by
      rw [fwdPred_eq]
      have hcf : comp .lt y.val (oldVal + 1) = false := by
        simp [comp]; omega
      rw [hcf]; rfl
    by_cases hv : y.val = oldVal + 1
    · rw [show stepIns k (oldVal + 1) (y :: ys) = ⟨y.val, insKey k y.keys⟩ :: ys from by
        simp [stepIns, hv]]
      rw [scanInsert_cons_merge _ hfp hv]
    · rw [show stepIns k (oldVal + 1) (y :: ys) = ⟨oldVal + 1, insKey k []⟩ :: y :: ys from by
        simp [stepIns, hv]]
      rw [scanInsert_cons_new _ hfp hv]
      simp [insKey]

theorem stepIns_rev_eq_scanInsert_gt {k : Nat} {oldVal : Int} {pre : List Bucket}
    (hs : Sorted .gt pre) (hx : ∀ x ∈ pre, comp .gt x.val oldVal = true) :
    (stepIns k (oldVal + 1) pre.reverse).reverse =
      scanInsert (fwdPred .gt (oldVal + 1)) (oldVal + 1) k pre := by
  by_cases hex : ∃ x ∈ pre, x.val = oldVal + 1
  · obtain ⟨x, hxm, hxv⟩ := hex
    obtain ⟨p1, p2, hps⟩ := List.append_of_mem hxm
    have hp2 : p2 = [] := by
      cases p2 with
      | nil => rfl
      | cons z zs =>
        exfalso
        have hlp : List.Pairwise (fun a b => comp .gt a.val b.val = true)
            (p1 ++ x :: z :: zs) := hps ▸ hs
        have hz : comp .gt x.val z.val = true :=
          (List.pairwise_cons.mp (List.pairwise_append.mp hlp).2.1).1 z (by simp)
        have hz2 : comp .gt z.val oldVal = true := hx z (by rw [hps]; simp)
        rw [hxv] at hz
        simp [comp] at hz hz2
        omega
    subst hp2
    subst hps
    have hp1 : ∀ y ∈ p1, fwdPred .gt (oldVal + 1) y = false := by
      intro y hy
      have hyx : comp .gt y.val x.val = true :=
        (List.pairwise_append.mp (hs : List.Pairwise _ _)).2.2 y hy x (by simp)
      rw [fwdPred_eq]
      have : comp .gt y.val (oldVal + 1) = true := by rw [← hxv]; exact hyx
      rw [this]; rfl
    have hfx : fwdPred .gt (oldVal + 1) x = true := by
      rw [fwdPred_eq]
      have : comp .gt x.val (oldVal + 1) = false := by
        rw [hxv]; exact comp_irrefl _ _
      rw [this]; rfl
    rw [scanInsert_skip _ hp1, scanInsert_cons_merge _ hfx hxv]
    rw [show (p1 ++ [x]).reverse = x :: p1.reverse from by simp]
    rw [show stepIns k (oldVal + 1) (x :: p1.reverse) =
        ⟨x.val, insKey k x.keys⟩ :: p1.reverse from by simp [stepIns, hxv]]
    simp
  · have hall : ∀ x ∈ pre, fwdPred .gt (oldVal + 1) x = false := by
      intro x hxm
      have h1 := hx x hxm
      have h2 : x.val ≠ oldVal + 1 := fun he => hex ⟨x, hxm, he⟩
      rw [fwdPred_eq]
      have : comp .gt x.val (oldVal + 1) = true := by
        simp [comp] at h1 ⊢
        omega
      rw [this]; rfl
    rw [scanInsert_all_false hall]
    cases hpr : pre.reverse with
    | nil =>
      have hp0 : pre = [] := by simpa using congrArg List.reverse hpr
      subst hp0
      show ([(⟨oldVal + 1, insKey k []⟩ : Bucket)]).reverse = _
      simp [insKey]
    | cons a as =>
      have hap : a ∈ pre := List.mem_reverse.mp (by rw [hpr]; simp)
      have hav : a.val ≠ oldVal + 1 := fun he => hex ⟨a, hap, he⟩
      rw [show stepIns k (oldVal + 1) (a :: as) =
          ⟨oldVal + 1, insKey k []⟩ :: a :: as from by simp [stepIns, hav]]
      have hpeq : pre = as.reverse ++ [a] := by simpa using congrArg List.reverse hpr
      rw [hpeq]
      simp [insKey]

/-- The dedicated `increment` of the older header reduces to the same
remove-then-forward-scan normal form at value `oldVal + 1`: the immediately
adjacent node is exactly where the full scan stops, because occupied values
are distinct and sorted and the value moves by one. -/
theorem increment_nf {c : Cmp} {s : PMap} {k : Nat} {oldVal : Int}
    (hwf : WF c s) (hk : lookupKey s.keyToNode_ k = some oldVal) :
    increment c s k =
      { nodeList_ :=
          scanInsert (fwdPred c (oldVal + 1)) (oldVal + 1) k
            (eraseFromBucket s.nodeList_ oldVal k),
        keyToNode_ := setKey (eraseKey s.keyToNode_ k) k (oldVal + 1) } := by
  obtain ⟨pre, ob, suf, hsplit, he, hobv, hprev, hkob⟩ := locate_key hwf hk
  have hsort : Sorted c s.nodeList_ := hwf.1
  rw [he] at hsort
  have hlp : List.Pairwise (fun a b => comp c a.val b.val = true) (pre ++ ob :: suf) := hsort
  have hsp : Sorted c pre := (List.pairwise_append.mp hlp).1
  have hpre_old : ∀ x ∈ pre, comp c x.val ob.val = true :=
    fun x hx => (List.pairwise_append.mp hlp).2.2 x hx ob (by simp)
  have hsuf_old : ∀ y ∈ suf, comp c ob.val y.val = true :=
    (List.pairwise_cons.mp (List.pairwise_append.mp hlp).2.1).1
  have hrhs : eraseFromBucket s.nodeList_ oldVal k =
      pre ++ (if (ob.keys.erase k).isEmpty then suf
              else ⟨ob.val, ob.keys.erase k⟩ :: suf) := by
    rw [he, eraseFromBucket_split hobv hprev]
  simp only [increment, hk, hsplit]
  rw [hrhs, PMap.mk.injEq]
  cases c with
  | lt =>
    have hcmp : comp .lt oldVal (oldVal + 1) = true := by simp [comp]
    rw [if_pos hcmp]
    refine ⟨?_, rfl⟩
    rw [stepIns_eq_scanInsert_lt (fun y hy => hobv ▸ hsuf_old y hy)]
    have hfob : fwdPred .lt (oldVal + 1) ⟨ob.val, ob.keys.erase k⟩ = false := by
      rw [fwdPred_eq]
      show (!(comp .lt ob.val (oldVal + 1))) = false
      rw [hobv, hcmp]; rfl
    have hfpre : ∀ x ∈ pre, fwdPred .lt (oldVal + 1) x = false := by
      intro x hx
      rw [fwdPred_eq, comp_trans (hobv ▸ hpre_old x hx) hcmp]; rfl
    rw [eraseBucketIfEmpty_cons_hit ⟨ob.val, ob.keys.erase k⟩ _ hobv,
      scanInsert_skip _ hfpre]
    by_cases em : (ob.keys.erase k).isEmpty
    · rw [if_pos em, if_pos em]
    · rw [if_neg em, if_neg em, scanInsert_cons_false _ hfob]
  | gt =>
    have hcmp : comp .gt oldVal (oldVal + 1) = false := by simp [comp]
    rw [if_neg (by rw [hcmp]; exact Bool.false_ne_true)]
    refine ⟨?_, rfl⟩
    have hno : comp .gt (oldVal + 1) oldVal = true := by simp [comp]
    rw [stepIns_rev_eq_scanInsert_gt hsp (fun x hx => hobv ▸ hpre_old x hx),
      eraseBucketIfEmpty_cons_hit ⟨ob.val, ob.keys.erase k⟩ _ hobv]
    by_cases hstop : ∃ x ∈ pre, fwdPred .gt (oldVal + 1) x = true
    · rw [scanInsert_stop _ hstop]
    · have hall := all_false_of_not_exists hstop
      rw [scanInsert_skip _ hall, scanInsert_all_false hall]
      have htail : ∀ y ∈ (if (ob.keys.erase k).isEmpty then suf
          else (⟨ob.val, ob.keys.erase k⟩ : Bucket) :: suf),
          comp .gt (oldVal + 1) y.val = true := by
        intro y hy
        by_cases em : (ob.keys.erase k).isEmpty
        · rw [if_pos em] at hy
          exact comp_trans hno (hobv ▸ hsuf_old y hy)
        · rw [if_neg em] at hy
          rcases List.mem_cons.mp hy with hy | hy
          · rw [hy]
            show comp .gt (oldVal + 1) ob.val = true
            rw [hobv]; exact hno
          · exact comp_trans hno (hobv ▸ hsuf_old y hy)
      rw [scanInsert_head_new htail]
      simp

/-! ## Preservation of well-formedness by every operation -/

theorem update_wf {c : Cmp} {s : PMap} (k : Nat) (v : Int) (hwf : WF c s) :
    WF c (update c s k v) := by
  cases hlk : lookupKey s.keyToNode_ k with
  | none => simpa only [update, hlk] using hwf
  | some oldVal =>
    by_cases hv : oldVal = v
    · simpa only [update, hlk, if_pos hv] using hwf
    · rw [update_nf hwf hlk hv]
      obtain ⟨hs, hne2, hnd, hkn, h4, h5, _⟩ := cleaned_wf hwf hlk
      exact glob_wf hs hne2 hnd hkn h4 h5

theorem update_lookup {c : Cmp} {s : PMap} {k : Nat} (v : Int) (hwf : WF c s)
    {oldVal : Int} (hk : lookupKey s.keyToNode_ k = some oldVal) :
    ∀ j, lookupKey (update c s k v).keyToNode_ j =
      if j = k then some v else lookupKey s.keyToNode_ j := by
  intro j
  by_cases hv : oldVal = v
  · simp only [update, hk, if_pos hv]
    by_cases hj : j = k
    · rw [if_pos hj, hj, hk, hv]
    · rw [if_neg hj]
  · rw [update_nf hwf hk hv]
    by_cases hj : j = k
    · rw [if_pos hj, hj]
      exact lookup_setKey_self _ _ _
    · rw [if_neg hj, lookup_setKey_ne _ _ hj, lookup_eraseKey_ne _ hj]

theorem insert_nf {c : Cmp} {s : PMap} {k : Nat} (v : Int)
    (hs : Sorted c s.nodeList_) (hk : lookupKey s.keyToNode_ k = none) :
    insert c s k v =
      update c { nodeList_ := scanInsert (fwdPred c 0) 0 k s.nodeList_,
                 keyToNode_ := setKey s.keyToNode_ k 0 } k v := by
  have hzf : zeroPred = fwdPred .lt 0 := funext zeroPred_eq_fwdPred
  have hzb : zeroPred = bwdPred .gt 0 := funext zeroPred_eq_bwdPred
  simp only [insert]
  rw [if_pos hk]
  cases c with
  | lt =>
    rw [if_pos (show comp .lt 0 1 = true from by simp [comp]), hzf]
  | gt =>
    rw [if_neg (show ¬comp .gt 0 1 = true from by simp [comp]), hzb,
      revScan_eq_fwdScan 0 k hs]

theorem fresh_of_lookup_none {c : Cmp} {s : PMap} {k : Nat}
    (hwf : WF c s) (hk : lookupKey s.keyToNode_ k = none) :
    k ∉ s.nodeList_.flatMap Bucket.keys := by
  intro hm
  obtain ⟨b, hb, hkb⟩ := List.mem_flatMap.mp hm
  have h5 := hwf.2.2.2.2 b hb k hkb
  rw [hk] at h5
  cases h5

theorem insert_wf {c : Cmp} {s : PMap} {k : Nat} (v : Int)
    (hwf : WF c s) (hk : lookupKey s.keyToNode_ k = none) :
    WF c (insert c s k v) := by
  rw [insert_nf v hwf.1 hk]
  exact update_wf k v
    (glob_wf hwf.1 hwf.2.1 hwf.2.2.1 (fresh_of_lookup_none hwf hk)
      hwf.2.2.2.1 hwf.2.2.2.2)

theorem insert_lookup {c : Cmp} {s : PMap} {k : Nat} (v : Int)
    (hwf : WF c s) (hk : lookupKey s.keyToNode_ k = none) :
    ∀ j, lookupKey (insert c s k v).keyToNode_ j =
      if j = k then some v else lookupKey s.keyToNode_ j := by
  rw [insert_nf v hwf.1 hk]
  have hs0 := glob_wf (v := (0 : Int)) hwf.1 hwf.2.1 hwf.2.2.1
    (fresh_of_lookup_none hwf hk) hwf.2.2.2.1 hwf.2.2.2.2
  intro j
  rw [update_lookup v hs0 (lookup_setKey_self _ _ _) j]
  by_cases hj : j = k
  · rw [if_pos hj, if_pos hj]
  · rw [if_neg hj, if_neg hj]
    exact lookup_setKey_ne _ _ hj

theorem indexOp_present {c : Cmp} {s : PMap} {k : Nat} {w : Int}
    (hk : lookupKey s.keyToNode_ k = some w) : indexOp c s k = s := by
  simp [indexOp, hk]

theorem indexOp_wf {c : Cmp} {s : PMap} (k : Nat) (hwf : WF c s) :
    WF c (indexOp c s k) := by
  by_cases hk : lookupKey s.keyToNode_ k = none
  · simp only [indexOp, hk, if_pos rfl]
    exact insert_wf 0 hwf hk
  · simpa only [indexOp, hk, if_false] using hwf

theorem indexOp_lookup_absent {c : Cmp} {s : PMap} {k : Nat}
    (hwf : WF c s) (hk : lookupKey s.keyToNode_ k = none) :
    ∀ j, lookupKey (indexOp c s k).keyToNode_ j =
      if j = k then some 0 else lookupKey s.keyToNode_ j := by
  simp only [indexOp, hk, if_pos rfl]
  exact insert_lookup 0 hwf hk

theorem erase_wf {c : Cmp} {s : PMap} (k : Nat) (hwf : WF c s) :
    WF c (erase s k).2 := by
  cases hk : lookupKey s.keyToNode_ k with
  | none => simpa only [erase, hk] using hwf
  | some oldVal =>
    obtain ⟨h1, h2, h3, _, h4, h5, _⟩ := cleaned_wf hwf hk
    simp only [erase, hk]
    exact ⟨h1, h2, h3, h4, h5⟩

theorem pop_eq_erase {c : Cmp} {s : PMap} (hwf : WF c s) {b : Bucket}
    {rest : List Bucket} (he : s.nodeList_ = b :: rest) {k0 : Nat} {ks : List Nat}
    (hks : b.keys = k0 :: ks) :
    pop s = (none, (erase s k0).2) := by
  have hb : b ∈ s.nodeList_ := by rw [he]; simp
  have hk0 : k0 ∈ b.keys := by rw [hks]; simp
  have hlk : lookupKey s.keyToNode_ k0 = some b.val := hwf.2.2.2.2 b hb k0 hk0
  have hefb : eraseFromBucket (b :: rest) b.val k0 =
      if (b.keys.erase k0).isEmpty then rest
      else ⟨b.val, b.keys.erase k0⟩ :: rest := by
    simp [eraseFromBucket]
  simp only [pop, he, hks, erase, hlk, hefb]
  by_cases em : ((k0 :: ks).erase k0).isEmpty
  · rw [if_pos em, if_pos em]
  · rw [if_neg em, if_neg em]

theorem pop_wf {c : Cmp} {s : PMap} (hwf : WF c s) : WF c (pop s).2 := by
  cases hn : s.nodeList_ with
  | nil => simpa only [pop, hn] using hwf
  | cons b rest =>
    cases hbk : b.keys with
    | nil => simpa only [pop, hn, hbk] using hwf
    | cons k0 ks =>
      rw [pop_eq_erase hwf hn hbk]
      exact erase_wf k0 hwf

theorem bracketIncr_wf {c : Cmp} {s : PMap} (k : Nat) (hwf : WF c s) :
    WF c (bracketIncr c s k) := by
  have h1 := indexOp_wf k hwf
  cases hlk : lookupKey (indexOp c s k).keyToNode_ k with
  | none => simpa only [bracketIncr, hlk] using h1
  | some v =>
    simp only [bracketIncr, hlk]
    exact update_wf k (v + 1) h1

theorem bracketDecr_wf {c : Cmp} {s : PMap} (k : Nat) (hwf : WF c s) :
    WF c (bracketDecr c s k) := by
  have h1 := indexOp_wf k hwf
  cases hlk : lookupKey (indexOp c s k).keyToNode_ k with
  | none => simpa only [bracketDecr, hlk] using h1
  | some v =>
    simp only [bracketDecr, hlk]
    exact update_wf k (v - 1) h1

theorem bracketAssign_wf {c : Cmp} {s : PMap} (k : Nat) (v : Int) (hwf : WF c s) :
    WF c (bracketAssign c s k v) :=
  update_wf k v (indexOp_wf k hwf)

theorem wf_empty (c : Cmp) : WF c { nodeList_ := [], keyToNode_ := [] } :=
  ⟨by simp [Sorted], by simp, by simp, by simp [lookupKey], by simp⟩

/-- Every state reachable through the public interface is well formed. -/
theorem reach_wf {c : Cmp} {s : PMap} (h : Reach c s) : WF c s := by
  induction h with
  | nil => exact wf_empty c
  | touch k _ ih => exact indexOp_wf k ih
  | incrR k _ ih => exact bracketIncr_wf k ih
  | decrR k _ ih => exact bracketDecr_wf k ih
  | assignR k v _ ih => exact bracketAssign_wf k v ih
  | popR _ ih => exact pop_wf ih
  | eraseR k _ ih => exact erase_wf k ih

/-! ## Derived facts used by the claims -/

theorem wf_lookup_iff {c : Cmp} {s : PMap} (hwf : WF c s) (j : Nat) (w : Int) :
    lookupKey s.keyToNode_ j = some w ↔
      ∃ b ∈ s.nodeList_, b.val = w ∧ j ∈ b.keys := by
  constructor
  · intro h
    exact hwf.2.2.2.1 (j, w) (lookupKey_mem h)
  · rintro ⟨b, hb, hbv, hbj⟩
    rw [hwf.2.2.2.2 b hb j hbj, hbv]

theorem sorted_vals_nodup {c : Cmp} {l : List Bucket} (h : Sorted c l) :
    (l.map Bucket.val).Nodup := by
  induction l with
  | nil => simp
  | cons b bs ih =>
    obtain ⟨hb, hbs⟩ := List.pairwise_cons.mp h
    rw [List.map_cons, List.nodup_cons]
    refine ⟨?_, ih hbs⟩
    intro hm
    obtain ⟨y, hy, hyv⟩ := List.mem_map.mp hm
    have hc := hb y hy
    rw [hyv] at hc
    exact absurd hc (by rw [comp_irrefl]; exact Bool.false_ne_true)

theorem wf_empty_iff {c : Cmp} {s : PMap} (hwf : WF c s) :
    s.nodeList_ = [] ↔ ∀ j, lookupKey s.keyToNode_ j = none := by
  constructor
  · intro hn j
    cases hlk : lookupKey s.keyToNode_ j with
    | none => rfl
    | some w =>
      obtain ⟨b, hb, _, _⟩ := (wf_lookup_iff hwf j w).mp hlk
      rw [hn] at hb
      simp at hb
  · intro hall
    cases hn : s.nodeList_ with
    | nil => rfl
    | cons b rest =>
      exfalso
      have hb : b ∈ s.nodeList_ := by rw [hn]; simp
      have hbne := hwf.2.1 b hb
      cases hbk : b.keys with
      | nil => exact absurd hbk hbne
      | cons k0 ks =>
        have h5 := hwf.2.2.2.2 b hb k0 (by rw [hbk]; simp)
        rw [hall k0] at h5
        cases h5

/-! ## The claims -/

/-- C1: on every reachable state with at least one present key, `top()`
returns some present key paired with its value, and no present key's value
beats that value under the configured comparator — it is the true extreme. -/
theorem claim_C1_top_extremal (c : Cmp) (s : PMap) (hreach : Reach c s)
    (h : ∃ k v, lookupKey s.keyToNode_ k = some v) :
    ∃ k0 v0, top s = .ok (k0, v0) ∧ lookupKey s.keyToNode_ k0 = some v0 ∧
      ∀ j w, lookupKey s.keyToNode_ j = some w → comp c w v0 = false := by
  have hwf := reach_wf hreach
  obtain ⟨k, v, hk⟩ := h
  obtain ⟨b, hb, hbv, hbk⟩ := (wf_lookup_iff hwf k v).mp hk
  cases hn : s.nodeList_ with
  | nil =>
    rw [hn] at hb
    simp at hb
  | cons b0 rest =>
    have hb0 : b0 ∈ s.nodeList_ := by rw [hn]; simp
    have hb0ne : b0.keys ≠ [] := hwf.2.1 b0 hb0
    cases hbk0 : b0.keys with
    | nil => exact absurd hbk0 hb0ne
    | cons k0 ks =>
      refine ⟨k0, b0.val, by simp [top, hn, hbk0], ?_, ?_⟩
      · exact hwf.2.2.2.2 b0 hb0 k0 (by rw [hbk0]; simp)
      · intro j w hjw
        obtain ⟨bj, hbj, hbjv, hbjk⟩ := (wf_lookup_iff hwf j w).mp hjw
        rw [hn] at hbj
        rcases List.mem_cons.mp hbj with hbj | hbj
        · rw [← hbjv, hbj]
          exact comp_irrefl c b0.val
        · have hsort := hwf.1
          rw [hn] at hsort
          have hcb := (List.pairwise_cons.mp hsort).1 bj hbj
          rw [← hbjv]
          exact comp_asymm hcb

/-- C2: on every reachable state the key index and the node list name each
other exactly: an indexed key sits in the node of its indexed value, and
every member key of every node is indexed with exactly that node's value. -/
theorem claim_C2_bijection (c : Cmp) (s : PMap) (h : Reach c s) :
    (∀ k v, lookupKey s.keyToNode_ k = some v →
      ∃ b ∈ s.nodeList_, b.val = v ∧ k ∈ b.keys) ∧
    (∀ b ∈ s.nodeList_, ∀ k ∈ b.keys, lookupKey s.keyToNode_ k = some b.val) := by
  have hwf := reach_wf h
  exact ⟨fun k v hk => (wf_lookup_iff hwf k v).mp hk, hwf.2.2.2.2⟩

/-- C3: on every reachable state adjacent nodes satisfy the comparator, no
two nodes share a value, and no node has an empty key set. -/
theorem claim_C3_bucket_order (c : Cmp) (s : PMap) (h : Reach c s) :
    List.Chain' (fun a b => comp c a.val b.val = true) s.nodeList_ ∧
    (s.nodeList_.map Bucket.val).Nodup ∧
    (∀ b ∈ s.nodeList_, b.keys ≠ []) := by
  have hwf := reach_wf h
  exact ⟨List.Pairwise.chain' hwf.1, sorted_vals_nodup hwf.1, hwf.2.1⟩

/-- C4: the round trip — on a well-formed state, setting a present key to
`v` via `update` makes a subsequent `getVal` return exactly `v`. -/
theorem claim_C4_roundtrip (c : Cmp) (s : PMap) (k : Nat) (w v : Int)
    (hwf : WF c s) (hk : lookupKey s.keyToNode_ k = some w) :
    getVal (update c s k v) k = .ok v := by
  have hl := update_lookup v hwf hk k
  rw [if_pos rfl] at hl
  simp [getVal, hl]

/-- C5: step equivalence — on a well-formed state with `k` present at value
`w`, the older header's dedicated `increment` path produces exactly the same
state as its generic `emplace` path run at `getVal(k) + 1`. -/
theorem claim_C5_step_equiv (c : Cmp) (s : PMap) (k : Nat) (w : Int)
    (hwf : WF c s) (hk : lookupKey s.keyToNode_ k = some w) :
    increment c s k = emplace c s k (w + 1) := by
  rw [increment_nf hwf hk, emplace_nf hwf hk (by omega)]

/-- Modelled from the spec's description of `set(key, newValue)`: a no-op on
an equal value; otherwise remove the key from its bucket (dropping the
bucket when it empties) and re-insert it with one sorted scan that merges
into the bucket holding exactly `newValue` or splices a new singleton bucket
at the crossover point. -/
def setSpec (c : Cmp) (s : PMap) (k : Nat) (newVal : Int) : PMap :=
  match lookupKey s.keyToNode_ k with
  | none => s
  | some oldVal =>
    if oldVal = newVal then s
    else
      { nodeList_ :=
          scanInsert (fwdPred c newVal) newVal k (eraseFromBucket s.nodeList_ oldVal k),
        keyToNode_ := setKey (eraseKey s.keyToNode_ k) k newVal }

/-- C6: `update` on a present key is a no-op at the key's current value, and
at any other value it agrees with the specification's remove-then-scan
description: the directional scan from the vacated position merges into the
node holding exactly the new value or splices a singleton node at the
crossover. -/
theorem claim_C6_set_algorithm (c : Cmp) (s : PMap) (k : Nat) (w v : Int)
    (hwf : WF c s) (hk : lookupKey s.keyToNode_ k = some w) :
    update c s k w = s ∧ update c s k v = setSpec c s k v := by
  constructor
  · simp [update, hk]
  · by_cases hv : w = v
    · subst hv
      simp [update, setSpec, hk]
    · rw [update_nf hwf hk hv]
      simp [setSpec, hk, hv]

/-- C7: the error contract on reachable states — `getVal` fails exactly on
absent keys and only with `KeyNotFound`; `top` and `pop` fail exactly when
no key is present and only with `EmptyStructure`; a failing `pop` returns
the state unchanged. -/
theorem claim_C7_error_contract (c : Cmp) (s : PMap) (h : Reach c s) :
    (∀ k, getVal s k = .error .keyNotFound ↔ lookupKey s.keyToNode_ k = none) ∧
    (∀ k e, getVal s k = .error e → e = .keyNotFound) ∧
    (top s = .error .emptyStructure ↔ ∀ j, lookupKey s.keyToNode_ j = none) ∧
    (∀ e, top s = .error e → e = .emptyStructure) ∧
    ((pop s).1 = some .emptyStructure ↔ ∀ j, lookupKey s.keyToNode_ j = none) ∧
    (∀ e, (pop s).1 = some e → e = .emptyStructure) ∧
    (∀ e, (pop s).1 = some e → (pop s).2 = s) := by
  have hwf := reach_wf h
  have hempty := wf_empty_iff hwf
  refine ⟨?_, ?_, ?_, ?_, ?_, ?_, ?_⟩
  · intro k
    cases hk : lookupKey s.keyToNode_ k <;> simp [getVal, hk]
  · intro k e
    cases hk : lookupKey s.keyToNode_ k <;> simp [getVal, hk]
    intro he
    rw [← he]
  · cases hn : s.nodeList_ with
    | nil =>
      simp only [top, hn]
      exact ⟨fun _ => hempty.mp hn, fun _ => by trivial⟩
    | cons b rest =>
      have hb : b ∈ s.nodeList_ := by rw [hn]; simp
      cases hbk : b.keys with
      | nil => exact absurd hbk (hwf.2.1 b hb)
      | cons k0 ks =>
        simp only [top, hn, hbk]
        constructor
        · intro he
          cases he
        · intro hall
          exact absurd hn (by rw [hempty.mpr hall] at hn ⊢; exact fun hh => by cases hh)
  · intro e
    cases hn : s.nodeList_ with
    | nil =>
      simp [top, hn]
      intro he
      rw [← he]
    | cons b rest =>
      have hb : b ∈ s.nodeList_ := by rw [hn]; simp
      cases hbk : b.keys with
      | nil => exact absurd hbk (hwf.2.1 b hb)
      | cons k0 ks =>
        simp [top, hn, hbk]
  · cases hn : s.nodeList_ with
    | nil =>
      simp only [pop, hn]
      exact ⟨fun _ => hempty.mp hn, fun _ => by trivial⟩
    | cons b rest =>
      have hb : b ∈ s.nodeList_ := by rw [hn]; simp
      cases hbk : b.keys with
      | nil => exact absurd hbk (hwf.2.1 b hb)
      | cons k0 ks =>
        rw [pop_eq_erase hwf hn hbk]
        constructor
        · intro he
          cases he
        · intro hall
          exact absurd hn (by rw [hempty.mpr hall] at hn ⊢; exact fun hh => by cases hh)
  · intro e
    cases hn : s.nodeList_ with
    | nil =>
      simp [pop, hn]
      intro he
      rw [← he]
    | cons b rest =>
      have hb : b ∈ s.nodeList_ := by rw [hn]; simp
      cases hbk : b.keys with
      | nil => exact absurd hbk (hwf.2.1 b hb)
      | cons k0 ks =>
        rw [pop_eq_erase hwf hn hbk]
        intro he
        cases he
  · intro e
    cases hn : s.nodeList_ with
    | nil =>
      simp only [pop, hn]
      intro _
      trivial
    | cons b rest =>
      have hb : b ∈ s.nodeList_ := by rw [hn]; simp
      cases hbk : b.keys with
      | nil => exact absurd hbk (hwf.2.1 b hb)
      | cons k0 ks =>
        rw [pop_eq_erase hwf hn hbk]
        intro he
        cases he

/-- C8: `erase` returns 1 exactly on present keys and 0 on absent ones,
leaves the state untouched for absent keys, removes exactly the erased key
from the index, and leaves no node containing the key and no empty node. -/
theorem claim_C8_erase (c : Cmp) (s : PMap) (k : Nat) (h : Reach c s) :
    ((erase s k).1 = if lookupKey s.keyToNode_ k = none then 0 else 1) ∧
    (lookupKey s.keyToNode_ k = none → (erase s k).2 = s) ∧
    (∀ j, lookupKey (erase s k).2.keyToNode_ j =
      if j = k then none else lookupKey s.keyToNode_ j) ∧
    (∀ b ∈ (erase s k).2.nodeList_, k ∉ b.keys ∧ b.keys ≠ []) := by
  have hwf := reach_wf h
  cases hk : lookupKey s.keyToNode_ k with
  | none =>
    have hfresh := fresh_of_lookup_none hwf hk
    refine ⟨by simp [erase, hk], fun _ => by simp [erase, hk], ?_, ?_⟩
    · intro j
      simp only [erase, hk]
      by_cases hj : j = k
      · rw [if_pos hj, hj, hk]
      · rw [if_neg hj]
    · intro b hb
      simp only [erase, hk] at hb
      refine ⟨?_, hwf.2.1 b hb⟩
      intro hkb
      exact hfresh (List.mem_flatMap.mpr ⟨b, hb, hkb⟩)
  | some w =>
    obtain ⟨_, hne, _, hkn, _, _, _⟩ := cleaned_wf hwf hk
    refine ⟨by simp [erase, hk], ?_, ?_, ?_⟩
    · intro hcontra
      simp at hcontra
    · intro j
      simp only [erase, hk]
      by_cases hj : j = k
      · rw [if_pos hj, hj]
        exact lookup_eraseKey_self _ _
      · rw [if_neg hj]
        exact lookup_eraseKey_ne _ hj
    · intro b hb
      simp only [erase, hk] at hb
      refine ⟨?_, hne b hb⟩
      intro hkb
      exact hkn (List.mem_flatMap.mpr ⟨b, hb, hkb⟩)

/-- C9: on every non-empty reachable state, `pop()` succeeds and deletes
exactly the key that `top()` on the same state returns (both pick the first
member of the front node), leaving every other key's index entry intact. -/
theorem claim_C9_top_pop_agree (c : Cmp) (s : PMap) (h : Reach c s)
    (hne : s.nodeList_ ≠ []) :
    ∃ k v, top s = .ok (k, v) ∧ lookupKey s.keyToNode_ k = some v ∧
      (pop s).1 = none ∧ lookupKey (pop s).2.keyToNode_ k = none ∧
      ∀ j, j ≠ k → lookupKey (pop s).2.keyToNode_ j = lookupKey s.keyToNode_ j := by
  have hwf := reach_wf h
  cases hn : s.nodeList_ with
  | nil => exact absurd hn hne
  | cons b rest =>
    have hb : b ∈ s.nodeList_ := by rw [hn]; simp
    cases hbk : b.keys with
    | nil => exact absurd hbk (hwf.2.1 b hb)
    | cons k0 ks =>
      have hlk : lookupKey s.keyToNode_ k0 = some b.val :=
        hwf.2.2.2.2 b hb k0 (by rw [hbk]; simp)
      rw [pop_eq_erase hwf hn hbk]
      refine ⟨k0, b.val, by simp [top, hn, hbk], hlk, rfl, ?_, ?_⟩
      · simp only [erase, hlk]
        exact lookup_eraseKey_self _ _
      · intro j hj
        simp only [erase, hlk]
        exact lookup_eraseKey_ne _ hj

/-- C10: the frame property — updating a present key `k` to any value never
changes any other key's index entry, and a first touch of an absent key
through `operator[]` preserves the value of every present key. -/
theorem claim_C10_frame (c : Cmp) (s : PMap) (k : Nat) (w : Int)
    (hwf : WF c s) (hk : lookupKey s.keyToNode_ k = some w) :
    (∀ v j, j ≠ k →
      lookupKey (update c s k v).keyToNode_ j = lookupKey s.keyToNode_ j) ∧
    (∀ k2, lookupKey s.keyToNode_ k2 = none →
      ∀ j w2, lookupKey s.keyToNode_ j = some w2 →
        lookupKey (indexOp c s k2).keyToNode_ j = some w2) := by
  constructor
  · intro v j hj
    rw [update_lookup v hwf hk j, if_neg hj]
  · intro k2 hk2 j w2 hj
    have hjne : j ≠ k2 := by
      intro he
      rw [he, hk2] at hj
      cases hj
    rw [indexOp_lookup_absent hwf hk2 j, if_neg hjne]
    exact hj

/-! ## Concrete witness states -/

/-- A small well-formed max-structure state: key 5 at value 2, key 7 at 0. -/
def sEx : PMap := ⟨[⟨2, [5]⟩, ⟨0, [7]⟩], [(5, 2), (7, 0)]⟩

/-- A small reachable state: `++pm[7]` on the empty max-structure. -/
def sRx : PMap := bracketIncr .gt ⟨[], []⟩ 7

theorem claim_C1_witness :
    Reach .gt sRx ∧ (∃ k v, lookupKey sRx.keyToNode_ k = some v) ∧
    (∃ k0 v0, top sRx = .ok (k0, v0) ∧ lookupKey sRx.keyToNode_ k0 = some v0 ∧
      ∀ j w, lookupKey sRx.keyToNode_ j = some w → comp .gt w v0 = false) :=
  ⟨Reach.incrR 7 Reach.nil, ⟨7, 1, by decide⟩,
    claim_C1_top_extremal .gt sRx (Reach.incrR 7 Reach.nil) ⟨7, 1, by decide⟩⟩

theorem claim_C2_witness :
    Reach .gt sRx ∧
    ((∀ k v, lookupKey sRx.keyToNode_ k = some v →
      ∃ b ∈ sRx.nodeList_, b.val = v ∧ k ∈ b.keys) ∧
    (∀ b ∈ sRx.nodeList_, ∀ k ∈ b.keys, lookupKey sRx.keyToNode_ k = some b.val)) :=
  ⟨Reach.incrR 7 Reach.nil, claim_C2_bijection .gt sRx (Reach.incrR 7 Reach.nil)⟩

theorem claim_C3_witness :
    Reach .gt sRx ∧
    (List.Chain' (fun a b => comp .gt a.val b.val = true) sRx.nodeList_ ∧
    (sRx.nodeList_.map Bucket.val).Nodup ∧
    (∀ b ∈ sRx.nodeList_, b.keys ≠ [])) :=
  ⟨Reach.incrR 7 Reach.nil, claim_C3_bucket_order .gt sRx (Reach.incrR 7 Reach.nil)⟩

theorem claim_C4_witness :
    WF .gt sEx ∧ lookupKey sEx.keyToNode_ 5 = some 2 ∧
    getVal (update .gt sEx 5 9) 5 = .ok 9 :=
  ⟨by decide, by decide, claim_C4_roundtrip .gt sEx 5 2 9 (by decide) (by decide)⟩

theorem claim_C5_witness :
    WF .gt sEx ∧ lookupKey sEx.keyToNode_ 7 = some 0 ∧
    increment .gt sEx 7 = emplace .gt sEx 7 (0 + 1) :=
  ⟨by decide, by decide, claim_C5_step_equiv .gt sEx 7 0 (by decide) (by decide)⟩

theorem claim_C6_witness :
    WF .gt sEx ∧ lookupKey sEx.keyToNode_ 5 = some 2 ∧
    (update .gt sEx 5 2 = sEx ∧ update .gt sEx 5 7 = setSpec .gt sEx 5 7) :=
  ⟨by decide, by decide, claim_C6_set_algorithm .gt sEx 5 2 7 (by decide) (by decide)⟩

theorem claim_C7_witness :
    Reach .gt sRx ∧
    ((∀ k, getVal sRx k = .error .keyNotFound ↔ lookupKey sRx.keyToNode_ k = none) ∧
    (∀ k e, getVal sRx k = .error e → e = .keyNotFound) ∧
    (top sRx = .error .emptyStructure ↔ ∀ j, lookupKey sRx.keyToNode_ j = none) ∧
    (∀ e, top sRx = .error e → e = .emptyStructure) ∧
    ((pop sRx).1 = some .emptyStructure ↔ ∀ j, lookupKey sRx.keyToNode_ j = none) ∧
    (∀ e, (pop sRx).1 = some e → e = .emptyStructure) ∧
    (∀ e, (pop sRx).1 = some e → (pop sRx).2 = sRx)) :=
  ⟨Reach.incrR 7 Reach.nil, claim_C7_error_contract .gt sRx (Reach.incrR 7 Reach.nil)⟩

theorem claim_C8_witness :
    Reach .gt sRx ∧
    (((erase sRx 7).1 = if lookupKey sRx.keyToNode_ 7 = none then 0 else 1) ∧
    (lookupKey sRx.keyToNode_ 7 = none → (erase sRx 7).2 = sRx) ∧
    (∀ j, lookupKey (erase sRx 7).2.keyToNode_ j =
      if j = 7 then none else lookupKey sRx.keyToNode_ j) ∧
    (∀ b ∈ (erase sRx 7).2.nodeList_, 7 ∉ b.keys ∧ b.keys ≠ [])) :=
  ⟨Reach.incrR 7 Reach.nil, claim_C8_erase .gt sRx 7 (Reach.incrR 7 Reach.nil)⟩

theorem claim_C9_witness :
    Reach .gt sRx ∧ sRx.nodeList_ ≠ [] ∧
    (∃ k v, top sRx = .ok (k, v) ∧ lookupKey sRx.keyToNode_ k = some v ∧
      (pop sRx).1 = none ∧ lookupKey (pop sRx).2.keyToNode_ k = none ∧
      ∀ j, j ≠ k → lookupKey (pop sRx).2.keyToNode_ j = lookupKey sRx.keyToNode_ j) :=
  ⟨Reach.incrR 7 Reach.nil, by decide,
    claim_C9_top_pop_agree .gt sRx (Reach.incrR 7 Reach.nil) (by decide)⟩

theorem claim_C10_witness :
    WF .gt sEx ∧ lookupKey sEx.keyToNode_ 5 = some 2 ∧
    ((∀ v j, j ≠ 5 →
      lookupKey (update .gt sEx 5 v).keyToNode_ j = lookupKey sEx.keyToNode_ j) ∧
    (∀ k2, lookupKey sEx.keyToNode_ k2 = none →
      ∀ j w2, lookupKey sEx.keyToNode_ j = some w2 →
        lookupKey (indexOp .gt sEx k2).keyToNode_ j = some w2)) :=
  ⟨by decide, by decide, claim_C10_frame .gt sEx 5 2 (by decide) (by decide)⟩

end Wilderfield
